import Mathlib

/-!
# osc-recorder-go: recorder schemes, session log, JSON persistence and replayer

A shallow embedding of `main.go` (the recorder) and `replayer.go` (the replayer).

Conventions of the embedding

* A Go `interface{}` value is a `GoVal`: one constructor per dynamic type that the
  type switches of the program distinguish.
* A `[]interface{}` variable is a `GoSlice`; `none` is the nil slice, which is what
  `var xs []interface{}` holds until the first `append`.
* A `float64` is a `Float64`: a finite value is given by the rational it denotes,
  next to the negative zero, the two infinities and NaN.  The arithmetic is IEEE-754:
  every sum, difference, product and quotient is the exact result rounded to the
  nearest binary64 value, ties to even, with subnormals, overflow to an infinity and
  the sign of zero.
* An argument list is a `List GoVal`; the slice it stands for is nil when it is empty,
  which is how go-osc delivers a message without arguments.
* Machine integers are `Int` with explicit wrapping to the width.
* A Go `string` is a `String`, so only strings of valid UTF-8 are represented.
* Clock readings, send failures and the results of conversions that the Go
  specification leaves to the implementation are inputs of the definitions.
-/

namespace OscRecorder

/-! ## Values -/

/-- IEEE-754 binary floating point value: a finite value by the rational it denotes
(`fin 0` is the positive zero), the negative zero, the infinities and NaN. -/
inductive Float64 where
  | fin (q : ℚ)
  | negZero
  | posInf
  | negInf
  | nan
  deriving DecidableEq, Repr

/-- Dynamic Go value held in an `interface{}`. -/
inductive GoVal where
  /-- the nil interface value -/
  | nil
  | int32 (n : Int)
  | int64 (n : Int)
  | int (n : Int)
  | float32 (f : Float64)
  | float64 (f : Float64)
  | str (s : String)
  | bool (b : Bool)
  /-- a nil `[]interface{}` -/
  | nilSlice
  /-- a non-nil `[]interface{}` -/
  | slice (xs : List GoVal)
  /-- a value of any other dynamic type (an OSC blob or timetag, a decoded JSON object),
  given by its `%v` rendering -/
  | other (rendered : String)
  deriving Repr

/-- A `[]interface{}` variable: `none` is the nil slice. -/
abbrev GoSlice := Option (List GoVal)

/-- Go `append(s, v)` on a `[]interface{}`. -/
def goAppend : GoSlice → GoVal → GoSlice
  | none, v => some [v]
  | some xs, v => some (xs ++ [v])

/-- The slice stored in an `interface{}`. -/
def GoSlice.toVal : GoSlice → GoVal
  | none => .nilSlice
  | some xs => .slice xs

/-- The elements of a slice value, in order (a nil slice has none). -/
def GoVal.elems : GoVal → List GoVal
  | .slice xs => xs
  | _ => []

/-- The variant kinds of the specification's argument value. -/
inductive Kind where
  | Integer
  | Float
  | String
  | Boolean
  | List
  | Null
  | Other
  deriving DecidableEq, Repr

/-- The variant kind of a Go value. -/
def GoVal.kind : GoVal → Kind
  | .nil => .Null
  | .int32 _ => .Integer
  | .int64 _ => .Integer
  | .int _ => .Integer
  | .float32 _ => .Float
  | .float64 _ => .Float
  | .str _ => .String
  | .bool _ => .Boolean
  | .nilSlice => .List
  | .slice _ => .List
  | .other _ => .Other

/-- A numeral as a `float64`. -/
instance (n : Nat) : OfNat Float64 n := ⟨.fin n⟩

/-! ## main.go: schemes -/

/-- The map with the keys "address" and "data" that a scheme returns. -/
structure Processed where
  address : String
  data : GoVal
  deriving Repr

/-- The scheme `schemes["dirt_basic"]`: take the first element only. -/
def dirt_basic (addr : String) (args : List GoVal) : Processed :=
  match args with
  | a :: _ => { address := addr, data := a }
  | [] => { address := addr, data := .nil }

/-- The `for i, v := range args` loop of `dirt_strip`, from index `i` on. -/
def dirtStripLoop : Nat → List GoVal → GoSlice → GoSlice
  | _, [], oddArgs => oddArgs
  | i, v :: rest, oddArgs =>
    dirtStripLoop (i + 1) rest (if i % 2 = 1 then goAppend oddArgs v else oddArgs)

/-- The scheme `schemes["dirt_strip"]`: return only the odd-indexed elements. -/
def dirt_strip (addr : String) (args : List GoVal) : Processed :=
  { address := addr, data := (dirtStripLoop 0 args none).toVal }

/-- The scheme `schemes["basic"]`: keep everything.  The data is the slice of the
message itself, which is the nil slice for a message without arguments. -/
def basic (addr : String) (args : List GoVal) : Processed :=
  match args with
  | [] => { address := addr, data := .nilSlice }
  | _ => { address := addr, data := .slice args }

/-- The type switch `case int32, float32, float64, int64, int` of `only_numbers`. -/
def isNumericCase : GoVal → Bool
  | .int32 _ => true
  | .float32 _ => true
  | .float64 _ => true
  | .int64 _ => true
  | .int _ => true
  | _ => false

/-- The `for _, v := range args` loop of `only_numbers`. -/
def onlyNumbersLoop : List GoVal → GoSlice → GoSlice
  | [], numeric => numeric
  | v :: rest, numeric =>
    onlyNumbersLoop rest (if isNumericCase v then goAppend numeric v else numeric)

/-- The scheme `schemes["only_numbers"]`: filter only the numeric values. -/
def only_numbers (addr : String) (args : List GoVal) : Processed :=
  { address := addr, data := (onlyNumbersLoop args none).toVal }

/-- The scheme table: the function registered under a name, if any. -/
def schemes (name : String) : Option (String → List GoVal → Processed) :=
  if name = "dirt_basic" then some dirt_basic
  else if name = "dirt_strip" then some dirt_strip
  else if name = "basic" then some basic
  else if name = "only_numbers" then some only_numbers
  else none

/-! ## Floating point and integer conversions -/

/-- The infinity of the given sign. -/
def Float64.inf (positive : Bool) : Float64 :=
  if positive then .posInf else .negInf

/-- The zero of the given sign. -/
def Float64.zero (negative : Bool) : Float64 :=
  if negative then .negZero else .fin 0

/-- The sign bit of a value that is not NaN. -/
def Float64.isNeg : Float64 → Bool
  | .fin q => decide (q < 0)
  | .negZero => true
  | .negInf => true
  | _ => false

/-- Whether a value is finite. -/
def Float64.isFinite : Float64 → Bool
  | .fin _ => true
  | .negZero => true
  | _ => false

/-- Whether a value is NaN. -/
def Float64.isNaN : Float64 → Bool
  | .nan => true
  | _ => false

/-- The rational a finite value denotes (0 for the others). -/
def Float64.toRat : Float64 → ℚ
  | .fin q => q
  | _ => 0

/-- The integer nearest to `x`, ties to even. -/
def roundHalfEven (x : ℚ) : Int :=
  if 1 / 2 < x - ⌊x⌋ ∨ (x - ⌊x⌋ = 1 / 2 ∧ ⌊x⌋ % 2 = 1) then ⌊x⌋ + 1 else ⌊x⌋

/-- IEEE-754 rounding to nearest, ties to even, of the exact result `q` to the binary
format of precision `prec` and exponent range `emin .. emax`: subnormal below
`2 ^ emin`, an infinity from `2 ^ (emax + 1)` on; `negative` is the sign of the result
when `q` is zero. -/
def roundBinary (prec emin emax : Int) (negative : Bool) (q : ℚ) : Float64 :=
  if q = 0 then Float64.zero negative
  else
    let ulp : ℚ := 2 ^ (max (Int.log 2 |q|) emin - (prec - 1))
    let m : Int := roundHalfEven (|q| / ulp)
    if 2 ^ (emax + 1) ≤ m * ulp then Float64.inf (decide (0 < q))
    else if m = 0 then Float64.zero (decide (q < 0))
    else .fin (if 0 < q then m * ulp else -(m * ulp))

/-- Rounding to `float64` (binary64). -/
def round64 (negative : Bool) (q : ℚ) : Float64 :=
  roundBinary 53 (-1022) 1023 negative q

/-- Go `x + y` on `float64`. -/
def Float64.add (x y : Float64) : Float64 :=
  if x.isNaN || y.isNaN then .nan
  else if !x.isFinite then (if !y.isFinite && x.isNeg != y.isNeg then .nan else x)
  else if !y.isFinite then y
  else round64 (x.isNeg && y.isNeg) (x.toRat + y.toRat)

/-- Go `x - y` on `float64`. -/
def Float64.sub (x y : Float64) : Float64 :=
  if x.isNaN || y.isNaN then .nan
  else if !x.isFinite then (if !y.isFinite && x.isNeg == y.isNeg then .nan else x)
  else if !y.isFinite then Float64.inf y.isNeg
  else round64 (x.isNeg && !y.isNeg) (x.toRat - y.toRat)

/-- Go `x * y` on `float64`. -/
def Float64.mul (x y : Float64) : Float64 :=
  if x.isNaN || y.isNaN then .nan
  else if x.isFinite && y.isFinite then round64 (x.isNeg != y.isNeg) (x.toRat * y.toRat)
  else if (x.isFinite && decide (x.toRat = 0)) || (y.isFinite && decide (y.toRat = 0)) then .nan
  else Float64.inf (x.isNeg == y.isNeg)

/-- Go `x / y` on `float64`. -/
def Float64.div (x y : Float64) : Float64 :=
  if x.isNaN || y.isNaN then .nan
  else if !x.isFinite then (if !y.isFinite then .nan else Float64.inf (x.isNeg == y.isNeg))
  else if !y.isFinite then Float64.zero (x.isNeg != y.isNeg)
  else if y.toRat = 0 then
    (if x.toRat = 0 then .nan else Float64.inf (x.isNeg == y.isNeg))
  else round64 (x.isNeg != y.isNeg) (x.toRat / y.toRat)

/-- Go `x < y` on `float64`: false as soon as one side is NaN. -/
def Float64.lt : Float64 → Float64 → Bool
  | .nan, _ => false
  | _, .nan => false
  | .posInf, _ => false
  | _, .negInf => false
  | .negInf, _ => true
  | _, .posInf => true
  | x, y => decide (x.toRat < y.toRat)

/-- Go `x <= y` on `float64`: false as soon as one side is NaN. -/
def Float64.le : Float64 → Float64 → Bool
  | .nan, _ => false
  | _, .nan => false
  | .negInf, _ => true
  | _, .posInf => true
  | .posInf, _ => false
  | _, .negInf => false
  | x, y => decide (x.toRat ≤ y.toRat)

/-- Go `x == y` on `float64`: NaN is equal to nothing, the two zeros are equal. -/
def Float64.eq : Float64 → Float64 → Bool
  | .nan, _ => false
  | _, .nan => false
  | .posInf, .posInf => true
  | .negInf, .negInf => true
  | .posInf, _ => false
  | .negInf, _ => false
  | _, .posInf => false
  | _, .negInf => false
  | x, y => decide (x.toRat = y.toRat)

/-- Two's complement wrap of an integer to `w` bits. -/
def wrapInt (w : Nat) (n : Int) : Int :=
  (n + 2 ^ (w - 1)) % 2 ^ w - 2 ^ (w - 1)

/-- The fraction of a rational discarded, towards zero. -/
def truncQ (q : ℚ) : Int :=
  q.num.tdiv q.den

/-- What the Go specification leaves to the implementation: the result of converting
a floating point value to an integer type that cannot represent it. -/
structure Platform where
  int64OfFloat : Float64 → Int
  int32OfFloat : Float64 → Int

/-- The amd64 implementation: the conversion instructions return the value with only
the sign bit set when the result is not representable. -/
def amd64 : Platform where
  int64OfFloat := fun _ => -(2 ^ 63)
  int32OfFloat := fun _ => -(2 ^ 31)

/-- Go `int64(v)` for a `float64` `v`. -/
def toInt64 (p : Platform) : Float64 → Int
  | .fin q =>
    if -(2 ^ 63) ≤ truncQ q ∧ truncQ q < 2 ^ 63 then truncQ q
    else wrapInt 64 (p.int64OfFloat (.fin q))
  | .negZero => 0
  | v => wrapInt 64 (p.int64OfFloat v)

/-- Go `int32(v)` for a `float64` `v`. -/
def toInt32 (p : Platform) : Float64 → Int
  | .fin q =>
    if -(2 ^ 31) ≤ truncQ q ∧ truncQ q < 2 ^ 31 then truncQ q
    else wrapInt 32 (p.int32OfFloat (.fin q))
  | .negZero => 0
  | v => wrapInt 32 (p.int32OfFloat v)

/-- An integer rounded to `prec` significant bits, ties to even. -/
def roundToBits (prec : Nat) (n : Int) : Int :=
  if n.natAbs < 2 ^ prec then n
  else
    let shift := Nat.log2 n.natAbs + 1 - prec
    let lo := n.natAbs / 2 ^ shift
    let rem := n.natAbs % 2 ^ shift
    let up := decide (2 ^ shift < 2 * rem) || (decide (2 * rem = 2 ^ shift) && decide (lo % 2 = 1))
    Int.sign n * (((if up then lo + 1 else lo) * 2 ^ shift : Nat) : Int)

/-- Go `float64(n)` for an `int64` `n`. -/
def ofInt64 (n : Int) : Float64 :=
  .fin (roundToBits 53 n : Int)

/-- Go `float32(v)` for a `float64` `v`: the nearest binary32 value, ties to even,
given as the value it denotes. -/
def toFloat32 : Float64 → Float64
  | .fin q => roundBinary 24 (-126) 127 false q
  | v => v

/-- Go `d.Seconds()` for a duration of `d` nanoseconds: the whole seconds plus the
nanoseconds of the remainder over `1e9`, in `float64`. -/
def seconds (d : Int) : Float64 :=
  (ofInt64 (d.tdiv 1000000000)).add ((ofInt64 (d.tmod 1000000000)).div (.fin 1000000000))

/-- Go `now.Sub(start)` on clock readings in nanoseconds: the difference, kept within
the range of a `Duration`. -/
def since (now start : Int) : Int :=
  max (-(2 ^ 63)) (min (2 ^ 63 - 1) (now - start))

/-! ## main.go: the session log -/

/-- The struct `RecordedMessage`, of both programs. -/
structure RecordedMessage where
  Time : Float64
  Address : String
  Data : GoVal
  deriving Repr

/-- An incoming `osc.Message`. -/
structure OscMessage where
  Address : String
  Arguments : List GoVal
  deriving Repr

/-- The package variables of the recorder that `handleOSCMessage` reads and writes;
`startTime` is an instant of the monotonic clock in nanoseconds. -/
structure Recorder where
  schemeFn : String → List GoVal → Processed
  messages : List RecordedMessage
  startTime : Int
  quantized : Bool

/-- The recorder as `main` leaves it before listening: an empty log and `startTime`
the clock reading `now`. -/
def Recorder.init (schemeFn : String → List GoVal → Processed) (quantized : Bool)
    (now : Int) : Recorder :=
  { schemeFn := schemeFn, messages := [], startTime := now, quantized := quantized }

/-- The handler `handleOSCMessage` on the recorder state; `now` is the clock reading of
`time.Since(startTime)` and `now2` the one of `time.Now()` in the quantized reset.
Logging and the forwarding to the repeaters do not touch the state. -/
def handleOSCMessage (st : Recorder) (msg : OscMessage) (now now2 : Int) : Recorder :=
  let t := seconds (since now st.startTime)
  let reset := st.quantized && decide (st.messages.length = 0)
  let startTime := if reset then now2 else st.startTime
  let t := if reset then Float64.fin 0 else t
  let processed := st.schemeFn msg.Address msg.Arguments
  let record : RecordedMessage :=
    { Time := t, Address := processed.address, Data := processed.data }
  { st with startTime := startTime, messages := st.messages ++ [record] }

/-- One delivery to the handler: the message and the two clock readings. -/
structure Delivery where
  msg : OscMessage
  now : Int
  now2 : Int

/-- The recorder after the deliveries, handled in order. -/
def Recorder.run (st : Recorder) : List Delivery → Recorder
  | [] => st
  | d :: rest => Recorder.run (handleOSCMessage st d.msg d.now d.now2) rest

/-! ## The persisted JSON document -/

/-- A JSON value as the programs write and read it.  A number is given by the finite
`float64` that `json.Unmarshal` reads from its literal, an object by the `%v`
rendering of the map it is decoded to. -/
inductive Json where
  | null
  | bool (b : Bool)
  | num (x : Float64)
  | str (s : String)
  | arr (xs : List Json)
  | obj (rendered : String)
  deriving Repr

/-- One element of the persisted array: an object with the fields "time", "address"
and "data"; the time is the finite `float64` read from its literal. -/
structure JsonRecord where
  time : Float64
  address : String
  data : Json
  deriving Repr

/-- Behaviour of `encoding/json` that the embedding takes as given: the `float64`
read back from the literal written for a finite `float32`, and the encoding of a
value of another dynamic type (none when it cannot be encoded). -/
structure JsonLib where
  float32Number : Float64 → Float64
  otherValue : String → Option Json

mutual
/-- The JSON value `json.Encoder.Encode` writes for an `interface{}` value, none when
it reports an error.  An integer is written in full and read back as the nearest
`float64`; a finite `float64` is written in the shortest form that is read back as
the same value; NaN and the infinities are not encoded. -/
def encodeVal (lib : JsonLib) : GoVal → Option Json
  | .nil => some .null
  | .int32 n => some (.num (ofInt64 n))
  | .int64 n => some (.num (ofInt64 n))
  | .int n => some (.num (ofInt64 n))
  | .float32 f => if f.isFinite then some (.num (lib.float32Number f)) else none
  | .float64 f => if f.isFinite then some (.num f) else none
  | .str s => some (.str s)
  | .bool b => some (.bool b)
  | .nilSlice => some .null
  | .slice xs => (encodeVals lib xs).map Json.arr
  | .other r => lib.otherValue r
/-- The JSON values of the elements of a slice, none when one fails. -/
def encodeVals (lib : JsonLib) : List GoVal → Option (List Json)
  | [] => some []
  | v :: rest =>
    match encodeVal lib v, encodeVals lib rest with
    | some j, some js => some (j :: js)
    | _, _ => none
end

/-- The JSON object written for one `RecordedMessage`. -/
def encodeRecord (lib : JsonLib) (m : RecordedMessage) : Option JsonRecord :=
  if m.Time.isFinite then
    match encodeVal lib m.Data with
    | some d => some { time := m.Time, address := m.Address, data := d }
    | none => none
  else none

/-- The JSON array written for the log, none when one record fails. -/
def encodeRecords (lib : JsonLib) : List RecordedMessage → Option (List JsonRecord)
  | [] => some []
  | m :: rest =>
    match encodeRecord lib m, encodeRecords lib rest with
    | some r, some rs => some (r :: rs)
    | _, _ => none

/-- The function `finalizeAndExit`, once the output file is created: the document
written to it and the exit status, 0 after `enc.Encode(messages)` succeeded and 1 after
it failed. -/
def finalizeAndExit (lib : JsonLib) (messages : List RecordedMessage) :
    Option (List JsonRecord) × Nat :=
  match encodeRecords lib messages with
  | some doc => (some doc, 0)
  | none => (none, 1)

mutual
/-- The `interface{}` value `json.Unmarshal` stores for a JSON value. -/
def decodeVal : Json → GoVal
  | .null => .nil
  | .bool b => .bool b
  | .num x => .float64 x
  | .str s => .str s
  | .arr xs => .slice (decodeVals xs)
  | .obj r => .other r
/-- The decoded elements of a JSON array. -/
def decodeVals : List Json → List GoVal
  | [] => []
  | j :: rest => decodeVal j :: decodeVals rest
end

/-- The `RecordedMessage` that `json.Unmarshal` builds from one element of the array. -/
def decodeRecord (r : JsonRecord) : RecordedMessage :=
  { Time := r.time, Address := r.address, Data := decodeVal r.data }

/-! ## replayer.go -/

/-- An argument of an outgoing OSC message, as `appendArg` appends it. -/
inductive OscArg where
  | int32 (n : Int)
  | float32 (f : Float64)
  | str (s : String)
  | bool (b : Bool)
  deriving DecidableEq, Repr

/-- An outgoing `osc.Message`. -/
structure OutMessage where
  Address : String
  Arguments : List OscArg
  deriving DecidableEq, Repr

mutual
/-- The function `appendArg`: the arguments of the message after `val` is appended to `msg`. -/
def appendArg (p : Platform) (msg : List OscArg) : GoVal → List OscArg
  | .float64 v =>
    if Float64.eq (ofInt64 (toInt64 p v)) v then msg ++ [.int32 (toInt32 p v)]
    else msg ++ [.float32 (toFloat32 v)]
  | .str v => msg ++ [.str v]
  | .int v => msg ++ [.int32 (wrapInt 32 v)]
  | .int32 v => msg ++ [.int32 v]
  | .int64 v => msg ++ [.int32 (wrapInt 32 v)]
  | .float32 v => msg ++ [.float32 v]
  | .bool v => msg ++ [.bool v]
  | .nilSlice => msg
  | .slice v => appendElems p msg v
  | .nil => msg ++ [.str "<nil>"]
  | .other rendered => msg ++ [.str rendered]
/-- The loop `for _, elem := range v` of `appendArg`. -/
def appendElems (p : Platform) (msg : List OscArg) : List GoVal → List OscArg
  | [] => msg
  | elem :: rest => appendElems p (appendArg p msg elem) rest
end

/-- The type switch on `msg.Data` in the replay loop: the arguments of the message
built for one record. -/
def buildArguments (p : Platform) (data : GoVal) : List OscArg :=
  match data with
  | .slice dataVal => dataVal.foldl (fun oscMsg v => appendArg p oscMsg v) []
  | .nilSlice => []
  | dataVal => appendArg p [] dataVal

/-- The value `scheduledTime` of the replay loop. -/
def scheduledTime (msgTime firstMsgTime speedFactor : Float64) : Float64 :=
  (msgTime.sub firstMsgTime).div speedFactor

/-- What one pass of the replay loop does: the schedule it computes, the duration in
nanoseconds it sleeps for (none when it does not sleep), the message it hands to
`client.Send` and whether that call returned an error. -/
structure Iteration where
  scheduledTime : Float64
  toWait : Float64
  slept : Option Int
  sent : OutMessage
  sendFailed : Bool
  deriving Repr

/-- The replay loop from index `i` on; `elapsed i` is the reading of
`time.Since(startTime).Seconds()` in pass `i` and `sendFails i` tells whether
`client.Send` returns an error in pass `i`. -/
def replayLoop (p : Platform) (speedFactor firstMsgTime : Float64)
    (elapsed : Nat → Float64) (sendFails : Nat → Bool) :
    Nat → List RecordedMessage → List Iteration
  | _, [] => []
  | i, msg :: rest =>
    let scheduled := scheduledTime msg.Time firstMsgTime speedFactor
    let toWait := scheduled.sub (elapsed i)
    let slept :=
      if Float64.lt (.fin 0) toWait then some (toInt64 p (toWait.mul (.fin 1000000000)))
      else none
    { scheduledTime := scheduled, toWait := toWait, slept := slept,
      sent := { Address := msg.Address, Arguments := buildArguments p msg.Data },
      sendFailed := sendFails i }
      :: replayLoop p speedFactor firstMsgTime elapsed sendFails (i + 1) rest

/-- How a run of the replayer ends. -/
inductive Outcome where
  /-- after `flag.Usage()` and `os.Exit(1)` -/
  | usage
  /-- after `log.Fatalf` -/
  | fatal (message : String)
  /-- after "No messages found in JSON file. Exiting." and return -/
  | noMessages
  /-- after the passes of the loop and "Replay completed." -/
  | completed (passes : List Iteration)
  deriving Repr

/-- The exit status of the process. -/
def Outcome.exitCode : Outcome → Nat
  | .usage => 1
  | .fatal _ => 1
  | .noMessages => 0
  | .completed _ => 0

/-- The passes of the replay loop that were run. -/
def Outcome.passes : Outcome → List Iteration
  | .completed its => its
  | _ => []

/-- The messages handed to `client.Send`, in order. -/
def Outcome.sends (o : Outcome) : List OutMessage :=
  o.passes.map (fun it => it.sent)

/-- The replayer's `main` from the parsed `recordings` on (steps 3 to 5). -/
def replay (p : Platform) (speedFactor : Float64) (recordings : List RecordedMessage)
    (elapsed : Nat → Float64) (sendFails : Nat → Bool) : Outcome :=
  match recordings with
  | [] => .noMessages
  | first :: _ =>
    .completed (replayLoop p speedFactor first.Time elapsed sendFails 0 recordings)

/-- The replayer's `main`: `jsonFile` and `speedFactor` are the parsed flags, `loaded`
is the parsed content of the file or the message of the failure to open, read or
parse it. -/
def replayerMain (p : Platform) (jsonFile : String) (speedFactor : Float64)
    (loaded : Except String (List JsonRecord))
    (elapsed : Nat → Float64) (sendFails : Nat → Bool) : Outcome :=
  if jsonFile = "" then .usage
  else
    match loaded with
    | .error e => .fatal e
    | .ok doc => replay p speedFactor (doc.map decodeRecord) elapsed sendFails

/-- Recording then replaying: the log is written by `finalizeAndExit`, the document
is loaded by the replayer and replayed; none when the document could not be written. -/
def recordThenReplay (lib : JsonLib) (p : Platform) (speedFactor : Float64)
    (messages : List RecordedMessage) (elapsed : Nat → Float64) (sendFails : Nat → Bool) :
    Option Outcome :=
  match (finalizeAndExit lib messages).1 with
  | some doc => some (replayerMain p "log.json" speedFactor (.ok doc) elapsed sendFails)
  | none => none

/-! ## Definitions used to state the properties -/

/-- The elements of a list at the odd zero-based positions. -/
def oddElems : List GoVal → List GoVal
  | _ :: b :: rest => b :: oddElems rest
  | _ => []

mutual
/-- The non-list leaves of a value, left to right, lists nested to any depth. -/
def leaves : GoVal → List GoVal
  | .slice xs => leavesOfList xs
  | .nilSlice => []
  | v => [v]
/-- The non-list leaves of the elements of a list, left to right. -/
def leavesOfList : List GoVal → List GoVal
  | [] => []
  | x :: rest => leaves x ++ leavesOfList rest
end

/-- Whether a value is a list. -/
def GoVal.isList : GoVal → Bool
  | .slice _ => true
  | .nilSlice => true
  | _ => false

/-- The recorded data as a list of values: the elements of a list data, or the single
scalar. -/
def dataElems : GoVal → List GoVal
  | .slice xs => xs
  | .nilSlice => []
  | v => [v]

/-- The scalar variants of the specification's argument value, which are what an
outgoing message carries. -/
inductive Argument where
  | Integer (n : Int)
  | Float (x : Float64)
  | String (s : String)
  | Boolean (b : Bool)
  deriving DecidableEq, Repr

/-- The argument value an outgoing OSC argument stands for. -/
def OscArg.toArgument : OscArg → Argument
  | .int32 n => .Integer n
  | .float32 f => .Float f
  | .str s => .String s
  | .bool b => .Boolean b

/-- The argument value a recorded value stands for, none for nil, lists and values of
other types. -/
def GoVal.toArgument : GoVal → Option Argument
  | .int32 n => some (.Integer n)
  | .int64 n => some (.Integer n)
  | .int n => some (.Integer n)
  | .float32 f => some (.Float f)
  | .float64 f => some (.Float f)
  | .str s => some (.String s)
  | .bool b => some (.Boolean b)
  | _ => none

/-- Whether the float `g` read back from the document is sent as a float of value `f`:
the integer test of `appendArg` fails on `g` and `float32(g)` is `f`. -/
def sentAsFloat (p : Platform) (g f : Float64) : Bool :=
  !(Float64.eq (ofInt64 (toInt64 p g)) g) && decide (toFloat32 g = f)

/-- The scalars that the round trip reproduces: a string, a boolean, an integer of the
32-bit range, and a finite float that is read back and sent as a float of the same
value. -/
def survivesRoundTrip (lib : JsonLib) (p : Platform) : GoVal → Bool
  | .int32 n => decide (-(2 ^ 31) ≤ n) && decide (n < 2 ^ 31)
  | .int64 n => decide (-(2 ^ 31) ≤ n) && decide (n < 2 ^ 31)
  | .int n => decide (-(2 ^ 31) ≤ n) && decide (n < 2 ^ 31)
  | .float32 f => f.isFinite && sentAsFloat p (lib.float32Number f) f
  | .float64 f => f.isFinite && sentAsFloat p f f
  | .str _ => true
  | .bool _ => true
  | _ => false

/-- Recorded data that the round trip reproduces: such a scalar, or a non-nil list
of such scalars. -/
def dataSurvives (lib : JsonLib) (p : Platform) : GoVal → Bool
  | .slice xs => xs.all (survivesRoundTrip lib p)
  | v => survivesRoundTrip lib p v

/-- A record with a finite time and data that the round trip reproduces. -/
def recordSurvives (lib : JsonLib) (p : Platform) (m : RecordedMessage) : Bool :=
  m.Time.isFinite && dataSurvives lib p m.Data

/-- The address and the argument values of an outgoing message. -/
def OutMessage.content (o : OutMessage) : String × List (Option Argument) :=
  (o.Address, o.Arguments.map (fun a => some a.toArgument))

/-- The address and the argument values of a recorded event: those of the elements of
a list data, or of the single scalar. -/
def RecordedMessage.content (m : RecordedMessage) : String × List (Option Argument) :=
  (m.Address, (dataElems m.Data).map GoVal.toArgument)

/-- The scheduled offsets that the passes of the replay loop computed, in order. -/
def Outcome.scheduledTimes (o : Outcome) : List Float64 :=
  o.passes.map (fun it => it.scheduledTime)

/-! ## Helper lemmas on the scheme loops -/

theorem elems_toVal (s : GoSlice) : s.toVal.elems = s.getD [] := by
  cases s <;> rfl

theorem getD_goAppend (s : GoSlice) (v : GoVal) :
    (goAppend s v).getD [] = s.getD [] ++ [v] := by
  cases s <;> rfl

theorem dirtStripLoop_even (i : Nat) (hi : i % 2 = 0) (args : List GoVal) (acc : GoSlice) :
    (dirtStripLoop i args acc).getD [] = acc.getD [] ++ oddElems args := by
  induction args using oddElems.induct generalizing i acc with
  | case1 a b rest ih =>
    have h1 : ¬ (i % 2 = 1) := by omega
    have h2 : (i + 1) % 2 = 1 := by omega
    have h3 : (i + 1 + 1) % 2 = 0 := by omega
    simp only [dirtStripLoop, h1, h2, if_true, if_false, oddElems]
    rw [ih (i + 1 + 1) h3, getD_goAppend]
    simp
  | case2 l hl =>
    match l, hl with
    | [], _ => simp [dirtStripLoop, oddElems]
    | [a], _ =>
      have h1 : ¬ (i % 2 = 1) := by omega
      simp [dirtStripLoop, oddElems, h1]
    | a :: b :: rest, hl => exact absurd rfl (hl a b rest)

theorem oddElems_length (l : List GoVal) : (oddElems l).length = l.length / 2 := by
  induction l using oddElems.induct with
  | case1 a b rest ih =>
    simp only [oddElems, List.length_cons, ih]
    omega
  | case2 l hl =>
    match l, hl with
    | [], _ => simp [oddElems]
    | [a], _ => simp [oddElems]
    | a :: b :: rest, hl => exact absurd rfl (hl a b rest)

theorem oddElems_getElem? (l : List GoVal) (k : Nat) :
    (oddElems l)[k]? = l[2 * k + 1]? := by
  induction l using oddElems.induct generalizing k with
  | case1 a b rest ih =>
    cases k with
    | zero => simp [oddElems]
    | succ k =>
      have : 2 * (k + 1) + 1 = (2 * k + 1) + 1 + 1 := by ring
      simp only [oddElems, List.getElem?_cons_succ, this, ih]
  | case2 l hl =>
    match l, hl with
    | [], _ => simp [oddElems]
    | [a], _ => simp [oddElems]
    | a :: b :: rest, hl => exact absurd rfl (hl a b rest)

theorem onlyNumbersLoop_getD (args : List GoVal) (acc : GoSlice) :
    (onlyNumbersLoop args acc).getD [] = acc.getD [] ++ args.filter isNumericCase := by
  induction args generalizing acc with
  | nil => simp [onlyNumbersLoop]
  | cons v rest ih =>
    simp only [onlyNumbersLoop, ih]
    by_cases h : isNumericCase v = true
    · simp [h, getD_goAppend]
    · simp [h]

theorem isNumericCase_iff_kind (v : GoVal) :
    isNumericCase v = (decide (v.kind = Kind.Integer) || decide (v.kind = Kind.Float)) := by
  cases v <;> rfl

/-! ## Scheme contracts -/

/-- C1: `dirt_strip` returns the address unchanged, and its data is the slice of the
elements of `args` at the odd zero-based positions in their order: it has
`args.length / 2` elements, the `k`-th one is `args[2k+1]`, and `[a,b,c,d,e,f]`
gives `[b,d,f]`. -/
theorem dirt_strip_odd_positions (addr : String) (args : List GoVal) :
    (dirt_strip addr args).address = addr
    ∧ (dirt_strip addr args).data.kind = Kind.List
    ∧ (dirt_strip addr args).data.elems.length = args.length / 2
    ∧ (∀ k : Nat, (dirt_strip addr args).data.elems[k]? = args[2 * k + 1]?)
    ∧ (∀ a b c d e f : GoVal,
        (dirt_strip addr [a, b, c, d, e, f]).data = GoVal.slice [b, d, f]) := by
  have hel : (dirt_strip addr args).data.elems = oddElems args := by
    simp [dirt_strip, elems_toVal, dirtStripLoop_even 0 rfl args none]
  refine ⟨rfl, ?_, ?_, ?_, ?_⟩
  · simp only [dirt_strip]
    cases dirtStripLoop 0 args none <;> rfl
  · rw [hel, oddElems_length]
  · intro k
    rw [hel, oddElems_getElem?]
  · intro a b c d e f
    rfl

/-- C2: `only_numbers` returns the address unchanged, and its data is the slice of
exactly those elements of `args` whose kind is Integer or Float, in their order; no
String and no Boolean element is in it, and `["x", 5, true, 3.2]` gives `[5, 3.2]`. -/
theorem only_numbers_filters_numeric (addr : String) (args : List GoVal) :
    (only_numbers addr args).address = addr
    ∧ (only_numbers addr args).data.kind = Kind.List
    ∧ (only_numbers addr args).data.elems
        = args.filter (fun v => decide (v.kind = Kind.Integer) || decide (v.kind = Kind.Float))
    ∧ (∀ v ∈ (only_numbers addr args).data.elems,
        v.kind ≠ Kind.String ∧ v.kind ≠ Kind.Boolean)
    ∧ (only_numbers addr
        [GoVal.str "x", GoVal.int32 5, GoVal.bool true, GoVal.float32 (Float64.fin (16 / 5))]).data
        = GoVal.slice [GoVal.int32 5, GoVal.float32 (Float64.fin (16 / 5))] := by
  have hel : (only_numbers addr args).data.elems
      = args.filter (fun v => decide (v.kind = Kind.Integer) || decide (v.kind = Kind.Float)) := by
    simp only [only_numbers, elems_toVal, onlyNumbersLoop_getD, Option.getD_none, List.nil_append]
    congr 1
    funext v
    exact isNumericCase_iff_kind v
  refine ⟨rfl, ?_, hel, ?_, rfl⟩
  · simp only [only_numbers]
    cases onlyNumbersLoop args none <;> rfl
  · intro v hv
    rw [hel, List.mem_filter] at hv
    have h := hv.2
    simp only [Bool.or_eq_true, decide_eq_true_eq] at h
    rcases h with h | h <;> simp [h]

/-- C3: `dirt_basic` returns the address unchanged; its data is `args[0]` when `args`
is non-empty and nil when `args` is empty, and the arguments after the first do not
influence the result. -/
theorem dirt_basic_first_or_nil (addr : String) :
    (∀ args : List GoVal, (dirt_basic addr args).address = addr)
    ∧ (∀ (a : GoVal) (rest : List GoVal), (dirt_basic addr (a :: rest)).data = a)
    ∧ (∀ args : List GoVal, (dirt_basic addr args).data = (args[0]?).getD GoVal.nil)
    ∧ (dirt_basic addr []).data = GoVal.nil
    ∧ (∀ (a : GoVal) (rest rest2 : List GoVal),
        dirt_basic addr (a :: rest) = dirt_basic addr (a :: rest2)) := by
  refine ⟨?_, fun _ _ => rfl, ?_, rfl, fun _ _ _ => rfl⟩
  · intro args
    cases args <;> rfl
  · intro args
    cases args <;> simp [dirt_basic]

/-! ## Helper lemmas on the recorder -/

theorem handleOSCMessage_quantized (st : Recorder) (msg : OscMessage) (now now2 : Int) :
    (handleOSCMessage st msg now now2).quantized = st.quantized := rfl

theorem handleOSCMessage_length (st : Recorder) (msg : OscMessage) (now now2 : Int) :
    (handleOSCMessage st msg now now2).messages.length = st.messages.length + 1 := by
  simp [handleOSCMessage]

theorem handleOSCMessage_first (st : Recorder) (msg : OscMessage) (now now2 : Int)
    (hq : st.quantized = true)
    (hinv : ∀ m, st.messages[0]? = some m → m.Time = Float64.fin 0) :
    ∀ m, (handleOSCMessage st msg now now2).messages[0]? = some m → m.Time = Float64.fin 0 := by
  intro m hm
  cases hmsgs : st.messages with
  | nil =>
    simp [handleOSCMessage, hq, hmsgs] at hm
    rw [← hm]
  | cons m0 rest =>
    simp [handleOSCMessage, hmsgs] at hm
    exact hinv m (by simp [hmsgs, hm])

theorem run_length (ds : List Delivery) (st : Recorder) :
    (st.run ds).messages.length = st.messages.length + ds.length := by
  induction ds generalizing st with
  | nil => simp [Recorder.run]
  | cons d rest ih =>
    simp only [Recorder.run, ih, handleOSCMessage_length, List.length_cons]
    omega

theorem run_first (ds : List Delivery) (st : Recorder) (hq : st.quantized = true)
    (hinv : ∀ m, st.messages[0]? = some m → m.Time = Float64.fin 0) :
    ∀ m, (st.run ds).messages[0]? = some m → m.Time = Float64.fin 0 := by
  induction ds generalizing st with
  | nil => simpa [Recorder.run] using hinv
  | cons d rest ih =>
    simp only [Recorder.run]
    exact ih _ (by rw [handleOSCMessage_quantized]; exact hq)
      (handleOSCMessage_first st d.msg d.now d.now2 hq hinv)

/-! ## Session log -/

/-- C4: with `quantized = true`, after any sequence of `handleOSCMessage` steps from the
initial empty-log state, with any clock readings, the log has one record per step and
the first record of a non-empty log has `Time == 0`. -/
theorem quantized_first_time_zero (schemeFn : String → List GoVal → Processed)
    (start : Int) (ds : List Delivery) :
    ((Recorder.init schemeFn true start).run ds).messages.length = ds.length
    ∧ (∀ m : RecordedMessage,
        ((Recorder.init schemeFn true start).run ds).messages[0]? = some m
          → m.Time = Float64.fin 0) := by
  refine ⟨?_, ?_⟩
  · rw [run_length]
    simp [Recorder.init]
  · exact run_first ds _ rfl (by simp [Recorder.init])

/-! ## Helper lemmas on the replayer -/

theorem replayLoop_sent (p : Platform) (speedFactor firstMsgTime : Float64)
    (elapsed : Nat → Float64) (sendFails : Nat → Bool) (recordings : List RecordedMessage)
    (i : Nat) :
    (replayLoop p speedFactor firstMsgTime elapsed sendFails i recordings).map
        (fun it => it.sent)
      = recordings.map
        (fun m => { Address := m.Address, Arguments := buildArguments p m.Data }) := by
  induction recordings generalizing i with
  | nil => rfl
  | cons m rest ih => simp [replayLoop, ih]

theorem replayLoop_sendFailed (p : Platform) (speedFactor firstMsgTime : Float64)
    (elapsed : Nat → Float64) (sendFails : Nat → Bool) (recordings : List RecordedMessage)
    (i : Nat) :
    (replayLoop p speedFactor firstMsgTime elapsed sendFails i recordings).map
        (fun it => it.sendFailed)
      = (List.range recordings.length).map (fun k => sendFails (i + k)) := by
  induction recordings generalizing i with
  | nil => rfl
  | cons m rest ih =>
    simp only [replayLoop, List.map_cons, ih, List.length_cons, List.range_succ_eq_map,
      List.map_map, Nat.add_zero]
    congr 1
    apply List.map_congr_left
    intro k _
    simp only [Function.comp_apply]
    congr 1
    omega

theorem replayLoop_scheduledTime (p : Platform) (speedFactor firstMsgTime : Float64)
    (elapsed : Nat → Float64) (sendFails : Nat → Bool) (recordings : List RecordedMessage)
    (i : Nat) :
    (replayLoop p speedFactor firstMsgTime elapsed sendFails i recordings).map
        (fun it => it.scheduledTime)
      = recordings.map (fun m => scheduledTime m.Time firstMsgTime speedFactor) := by
  induction recordings generalizing i with
  | nil => rfl
  | cons m rest ih => simp [replayLoop, ih]

theorem replay_sends (p : Platform) (speedFactor : Float64)
    (recordings : List RecordedMessage) (elapsed : Nat → Float64) (sendFails : Nat → Bool) :
    (replay p speedFactor recordings elapsed sendFails).sends
      = recordings.map
        (fun m => { Address := m.Address, Arguments := buildArguments p m.Data }) := by
  cases recordings with
  | nil => rfl
  | cons first rest =>
    simp only [replay, Outcome.sends, Outcome.passes]
    exact replayLoop_sent p speedFactor first.Time elapsed sendFails (first :: rest) 0

theorem replay_exitCode (p : Platform) (speedFactor : Float64)
    (recordings : List RecordedMessage) (elapsed : Nat → Float64) (sendFails : Nat → Bool) :
    (replay p speedFactor recordings elapsed sendFails).exitCode = 0 := by
  cases recordings <;> rfl

theorem appendElems_eq_foldl (p : Platform) (xs : List GoVal) (msg : List OscArg) :
    appendElems p msg xs = xs.foldl (fun oscMsg v => appendArg p oscMsg v) msg := by
  induction xs generalizing msg with
  | nil => simp [appendElems]
  | cons x rest ih => simp [appendElems, ih]

mutual
theorem appendArg_append (p : Platform) :
    ∀ (v : GoVal) (msg : List OscArg), appendArg p msg v = msg ++ appendArg p [] v
  | .slice xs, msg => by
    simp only [appendArg]
    exact appendElems_append p xs msg
  | .nil, msg => by simp [appendArg]
  | .int32 _, msg => by simp [appendArg]
  | .int64 _, msg => by simp [appendArg]
  | .int _, msg => by simp [appendArg]
  | .float32 _, msg => by simp [appendArg]
  | .float64 _, msg => by
    simp only [appendArg]
    split <;> simp
  | .str _, msg => by simp [appendArg]
  | .bool _, msg => by simp [appendArg]
  | .nilSlice, msg => by simp [appendArg]
  | .other _, msg => by simp [appendArg]
theorem appendElems_append (p : Platform) :
    ∀ (xs : List GoVal) (msg : List OscArg), appendElems p msg xs = msg ++ appendElems p [] xs
  | [], msg => by simp [appendElems]
  | x :: rest, msg => by
    simp only [appendElems]
    rw [appendElems_append p rest (appendArg p msg x),
      appendElems_append p rest (appendArg p [] x), appendArg_append p x msg]
    simp
end

theorem appendElems_join (p : Platform) (xs : List GoVal) :
    appendElems p [] xs = (xs.map (fun x => appendArg p [] x)).flatten := by
  induction xs with
  | nil => simp [appendElems]
  | cons x rest ih =>
    simp only [appendElems, List.map_cons, List.flatten_cons]
    rw [appendElems_append, ih]

mutual
theorem appendArg_leaves (p : Platform) :
    ∀ v : GoVal, appendArg p [] v = ((leaves v).map (fun x => appendArg p [] x)).flatten
  | .slice xs => by
    simp only [appendArg, leaves]
    exact appendElems_leaves p xs
  | .nil => by simp [leaves]
  | .int32 _ => by simp [leaves]
  | .int64 _ => by simp [leaves]
  | .int _ => by simp [leaves]
  | .float32 _ => by simp [leaves]
  | .float64 _ => by simp [leaves]
  | .str _ => by simp [leaves]
  | .bool _ => by simp [leaves]
  | .nilSlice => by simp [leaves, appendArg]
  | .other _ => by simp [leaves]
theorem appendElems_leaves (p : Platform) :
    ∀ xs : List GoVal,
      appendElems p [] xs = ((leavesOfList xs).map (fun x => appendArg p [] x)).flatten
  | [] => by simp [appendElems, leavesOfList]
  | x :: rest => by
    simp only [appendElems, leavesOfList, List.map_append, List.flatten_append]
    rw [appendElems_append, appendElems_leaves p rest, ← appendArg_leaves p x]
end

mutual
theorem leaves_not_list :
    ∀ (v x : GoVal), x ∈ leaves v → x.isList = false
  | .slice xs, x, h => by
    simp only [leaves] at h
    exact leavesOfList_not_list xs x h
  | .nil, x, h => by simp [leaves] at h; subst h; rfl
  | .int32 _, x, h => by simp [leaves] at h; subst h; rfl
  | .int64 _, x, h => by simp [leaves] at h; subst h; rfl
  | .int _, x, h => by simp [leaves] at h; subst h; rfl
  | .float32 _, x, h => by simp [leaves] at h; subst h; rfl
  | .float64 _, x, h => by simp [leaves] at h; subst h; rfl
  | .str _, x, h => by simp [leaves] at h; subst h; rfl
  | .bool _, x, h => by simp [leaves] at h; subst h; rfl
  | .nilSlice, x, h => by simp [leaves] at h
  | .other _, x, h => by simp [leaves] at h; subst h; rfl
theorem leavesOfList_not_list :
    ∀ (xs : List GoVal) (x : GoVal), x ∈ leavesOfList xs → x.isList = false
  | [], x, h => by simp [leavesOfList] at h
  | y :: rest, x, h => by
    simp only [leavesOfList, List.mem_append] at h
    rcases h with h | h
    · exact leaves_not_list y x h
    · exact leavesOfList_not_list rest x h
end

theorem appendArg_scalar_length (p : Platform) (x : GoVal) (hx : x.isList = false) :
    (appendArg p [] x).length = 1 := by
  cases x <;> simp [GoVal.isList] at hx <;> simp [appendArg]
  split <;> simp

theorem buildArguments_eq_appendArg (p : Platform) (data : GoVal) :
    buildArguments p data = appendArg p [] data := by
  cases data <;> simp [buildArguments, appendArg, appendElems_eq_foldl]

/-! ## Replay loop -/

/-- C6: for every event list, every speed factor > 0, every sequence of clock readings
and every pattern of send failures, the replay loop hands exactly one message per
event to `client.Send`, in file order, with that event's address (and the arguments
built from its data), whether or not earlier sends failed; the run ends with exit
status 0, and for the empty event list nothing is sent. -/
theorem replay_sends_each_event_once (p : Platform) (speedFactor : Float64)
    (recordings : List RecordedMessage) (elapsed : Nat → Float64) (sendFails : Nat → Bool)
    (hspeed : Float64.lt (Float64.fin 0) speedFactor = true) :
    (replay p speedFactor recordings elapsed sendFails).sends
        = recordings.map
          (fun m => { Address := m.Address, Arguments := buildArguments p m.Data })
    ∧ (replay p speedFactor recordings elapsed sendFails).sends.map (fun o => o.Address)
        = recordings.map (fun m => m.Address)
    ∧ (replay p speedFactor recordings elapsed sendFails).passes.map (fun it => it.sendFailed)
        = (List.range recordings.length).map sendFails
    ∧ (replay p speedFactor recordings elapsed sendFails).exitCode = 0
    ∧ (replay p speedFactor [] elapsed sendFails).sends = [] := by
  have _ := hspeed
  refine ⟨replay_sends p speedFactor recordings elapsed sendFails, ?_, ?_,
    replay_exitCode p speedFactor recordings elapsed sendFails, rfl⟩
  · rw [replay_sends]
    simp
  · cases recordings with
    | nil => rfl
    | cons first rest =>
      simp only [replay, Outcome.passes]
      rw [replayLoop_sendFailed]
      simp

/-- Witness of C6: two events replayed at speed 1 with the second one late and the
first send failing. -/
theorem replay_sends_each_event_once_witness :
    Float64.lt (Float64.fin 0) (Float64.fin 1) = true
    ∧ (replay amd64 (Float64.fin 1)
        [{ Time := Float64.fin 0, Address := "/a", Data := GoVal.str "x" },
         { Time := Float64.fin 1, Address := "/b", Data := GoVal.bool true }]
        (fun _ => Float64.fin 5) (fun i => decide (i = 0))).sends
      = [{ Address := "/a", Arguments := [OscArg.str "x"] },
         { Address := "/b", Arguments := [OscArg.bool true] }] :=
  ⟨by decide,
   (replay_sends_each_event_once amd64 (Float64.fin 1)
      [{ Time := Float64.fin 0, Address := "/a", Data := GoVal.str "x" },
       { Time := Float64.fin 1, Address := "/b", Data := GoVal.bool true }]
      (fun _ => Float64.fin 5) (fun i => decide (i = 0)) (by decide)).1⟩

/-! ## Argument coercion -/

/-- C9: for a list value, nested to any depth, `appendArg` appends the concatenation,
in order, of what it appends for each element; what it appends for any value is the
left-to-right sequence of what it appends for the non-list leaves, each of which
gives exactly one argument; the function is total; and the list case of the replay
loop builds the same arguments as `appendArg` on the whole data value. -/
theorem appendArg_flattens_lists (p : Platform) :
    (∀ (msg : List OscArg) (xs : List GoVal),
        appendArg p msg (GoVal.slice xs)
          = msg ++ (xs.map (fun x => appendArg p [] x)).flatten)
    ∧ (∀ (msg : List OscArg) (xs : List GoVal),
        appendArg p msg (GoVal.slice xs)
          = xs.foldl (fun oscMsg v => appendArg p oscMsg v) msg)
    ∧ (∀ (msg : List OscArg) (v : GoVal),
        appendArg p msg v = msg ++ ((leaves v).map (fun x => appendArg p [] x)).flatten)
    ∧ (∀ v x : GoVal, x ∈ leaves v → x.isList = false ∧ (appendArg p [] x).length = 1)
    ∧ (∀ data : GoVal, buildArguments p data = appendArg p [] data) := by
  refine ⟨?_, ?_, ?_, ?_, buildArguments_eq_appendArg p⟩
  · intro msg xs
    rw [appendArg_append]
    simp only [appendArg, appendElems_join]
  · intro msg xs
    simp only [appendArg, appendElems_eq_foldl]
  · intro msg v
    rw [appendArg_append, ← appendArg_leaves]
  · intro v x hx
    exact ⟨leaves_not_list v x hx, appendArg_scalar_length p x (leaves_not_list v x hx)⟩

/-! ## Helper lemmas on the conversions -/

theorem truncQ_intCast (n : Int) : truncQ (n : ℚ) = n := by
  simp [truncQ]

theorem roundToBits_small (prec : Nat) (n : Int) (h : n.natAbs < 2 ^ prec) :
    roundToBits prec n = n := by
  simp [roundToBits, h]

theorem wrapInt_range (w : Nat) (n : Int) :
    -(2 ^ (w - 1)) ≤ wrapInt w n ∧ wrapInt w n < 2 ^ w - 2 ^ (w - 1) := by
  have hpos : (0 : Int) < 2 ^ w := by positivity
  have h1 := Int.emod_nonneg (n + 2 ^ (w - 1)) (ne_of_gt hpos)
  have h2 := Int.emod_lt_of_pos (n + 2 ^ (w - 1)) hpos
  unfold wrapInt
  constructor <;> omega

theorem ofInt64_toInt64_of_int32 (p : Platform) (n : Int)
    (hlo : -(2 ^ 31) ≤ n) (hhi : n < 2 ^ 31) :
    ofInt64 (toInt64 p (Float64.fin (n : ℚ))) = Float64.fin (n : ℚ) := by
  have h64 : -(2 ^ 63) ≤ n ∧ n < 2 ^ 63 := by constructor <;> omega
  have hsmall : n.natAbs < 2 ^ 53 := by omega
  simp only [toInt64, truncQ_intCast, h64, and_self, if_true, ofInt64,
    roundToBits_small 53 n hsmall]

theorem toInt32_of_int32 (p : Platform) (n : Int)
    (hlo : -(2 ^ 31) ≤ n) (hhi : n < 2 ^ 31) :
    toInt32 p (Float64.fin (n : ℚ)) = n := by
  have h32 : -(2 ^ 31) ≤ n ∧ n < 2 ^ 31 := ⟨hlo, hhi⟩
  simp only [toInt32, truncQ_intCast, h32, and_self, if_true]

theorem appendArg_float64_int (p : Platform) (msg : List OscArg) (n : Int)
    (hlo : -(2 ^ 31) ≤ n) (hhi : n < 2 ^ 31) :
    appendArg p msg (GoVal.float64 (Float64.fin (n : ℚ))) = msg ++ [OscArg.int32 n] := by
  simp [appendArg, ofInt64_toInt64_of_int32 p n hlo hhi, toInt32_of_int32 p n hlo hhi,
    Float64.eq]

theorem eq_ofInt64_fraction (k : Int) (q : ℚ) (hq : q.den ≠ 1) :
    Float64.eq (ofInt64 k) (Float64.fin q) = false := by
  simp only [ofInt64, Float64.eq, Float64.toRat, decide_eq_false_iff_not]
  intro h
  apply hq
  rw [← h]
  exact Rat.den_intCast _

theorem appendArg_float64_fraction (p : Platform) (msg : List OscArg) (q : ℚ)
    (hq : q.den ≠ 1) :
    appendArg p msg (GoVal.float64 (Float64.fin q))
      = msg ++ [OscArg.float32 (toFloat32 (Float64.fin q))] := by
  simp [appendArg, eq_ofInt64_fraction _ q hq]

theorem toInt32_range (p : Platform) (v : Float64) :
    -(2 ^ 31) ≤ toInt32 p v ∧ toInt32 p v < 2 ^ 31 := by
  have hw : ∀ n : Int, -(2 ^ 31) ≤ wrapInt 32 n ∧ wrapInt 32 n < 2 ^ 31 := by
    intro n
    have := wrapInt_range 32 n
    constructor
    · exact this.1
    · have h2 := this.2
      norm_num at h2 ⊢
      exact h2
  cases v with
  | fin q =>
    simp only [toInt32]
    split
    · assumption
    · exact hw _
  | negZero => simp [toInt32]
  | posInf => exact hw _
  | negInf => exact hw _
  | nan => exact hw _

/-! ## Helper lemmas on rounding -/

theorem roundHalfEven_intCast (n : ℤ) : roundHalfEven (n : ℚ) = n := by
  simp [roundHalfEven]

theorem roundHalfEven_nonneg (x : ℚ) (hx : 0 ≤ x) : 0 ≤ roundHalfEven x := by
  have h : 0 ≤ ⌊x⌋ := Int.floor_nonneg.2 hx
  unfold roundHalfEven
  split <;> omega

theorem roundHalfEven_le (x : ℚ) (b : ℤ) (hx : x < b) : roundHalfEven x ≤ b := by
  have h : ⌊x⌋ < b := Int.floor_lt.2 hx
  unfold roundHalfEven
  split <;> omega

theorem log_lt_of_lt_zpow (r : ℚ) (x : ℤ) (hr : 0 < r) (h : r < (2 : ℚ) ^ x) :
    Int.log 2 r < x :=
  (Int.lt_zpow_iff_log_lt (by norm_num) hr).1 (by simpa using h)

theorem lt_zpow_log_succ (r : ℚ) : r < (2 : ℚ) ^ (Int.log 2 r + 1) := by
  simpa using Int.lt_zpow_succ_log_self (R := ℚ) (b := 2) (by norm_num) r

theorem log_eq_of_bounds (r : ℚ) (e : ℤ) (h1 : (2 : ℚ) ^ e ≤ r) (h2 : r < (2 : ℚ) ^ (e + 1)) :
    Int.log 2 r = e := by
  have hr : 0 < r := lt_of_lt_of_le (by positivity) h1
  have a : e ≤ Int.log 2 r := (Int.zpow_le_iff_le_log (by norm_num) hr).1 (by simpa using h1)
  have b : Int.log 2 r < e + 1 := log_lt_of_lt_zpow r (e + 1) hr h2
  omega

/-- A non-zero value `m * 2 ^ k` with `|m| < 2 ^ prec`, `k` at least the exponent of the
smallest subnormal and below the overflow threshold is its own rounding. -/
theorem roundBinary_exact (prec emin emax : ℤ) (negative : Bool) (m k : ℤ) (hm0 : m ≠ 0)
    (hm : |(m : ℚ)| < 2 ^ prec) (hk : emin - (prec - 1) ≤ k)
    (hover : |(m : ℚ)| * 2 ^ k < 2 ^ (emax + 1)) :
    roundBinary prec emin emax negative ((m : ℚ) * 2 ^ k) = .fin ((m : ℚ) * 2 ^ k) := by
  have h2k : (0 : ℚ) < 2 ^ k := by positivity
  have hmq : (m : ℚ) ≠ 0 := by exact_mod_cast hm0
  have hq : (m : ℚ) * 2 ^ k ≠ 0 := mul_ne_zero hmq (ne_of_gt h2k)
  have habs : |(m : ℚ) * 2 ^ k| = |(m : ℚ)| * 2 ^ k := by
    rw [abs_mul, abs_of_pos h2k]
  have hpos : 0 < |(m : ℚ)| * 2 ^ k := mul_pos (abs_pos.2 hmq) h2k
  have hlog : Int.log 2 (|(m : ℚ)| * 2 ^ k) < prec + k := by
    apply log_lt_of_lt_zpow _ _ hpos
    rw [zpow_add₀ (by norm_num : (2 : ℚ) ≠ 0)]
    exact mul_lt_mul_of_pos_right hm h2k
  obtain ⟨u, hu⟩ : ∃ u, max (Int.log 2 (|(m : ℚ)| * 2 ^ k)) emin - (prec - 1) = u := ⟨_, rfl⟩
  have hj : 0 ≤ k - u := by
    rw [← hu]
    rcases max_cases (Int.log 2 (|(m : ℚ)| * 2 ^ k)) emin with ⟨h, _⟩ | ⟨h, _⟩ <;> rw [h] <;> omega
  obtain ⟨j, hjn⟩ := Int.eq_ofNat_of_zero_le hj
  have hu0 : (2 : ℚ) ^ u ≠ 0 := by positivity
  have h2 : (2 : ℚ) ^ k = 2 ^ u * 2 ^ j := by
    have hk' : k = u + (j : ℤ) := by omega
    conv_lhs => rw [hk']
    rw [zpow_add₀ (by norm_num : (2 : ℚ) ≠ 0), zpow_natCast]
  have hscaled : |(m : ℚ)| * 2 ^ k / 2 ^ u = ((|m| * 2 ^ j : ℤ) : ℚ) := by
    rw [h2]
    field_simp
    ring
  have hback : ((|m| * 2 ^ j : ℤ) : ℚ) * 2 ^ u = |(m : ℚ)| * 2 ^ k := by
    rw [h2]
    push_cast
    ring
  have hN0 : (|m| * 2 ^ j : ℤ) ≠ 0 := by
    have : (0 : ℤ) < |m| := abs_pos.2 hm0
    positivity
  simp only [roundBinary, hq, if_false, habs, hu, hscaled, roundHalfEven_intCast, hback,
    not_le.2 hover, hN0]
  congr 1
  rcases lt_or_gt_of_ne hmq with h | h
  · have hneg : ¬ (0 < (m : ℚ) * 2 ^ k) := not_lt.2 (le_of_lt (mul_neg_of_neg_of_pos h h2k))
    rw [if_neg hneg, abs_of_neg h]
    ring
  · have hp : 0 < (m : ℚ) * 2 ^ k := mul_pos h h2k
    rw [if_pos hp, abs_of_pos h]

theorem zpow_toNat (p : ℤ) (hp : 0 ≤ p) : (((2 : ℤ) ^ p.toNat : ℤ) : ℚ) = (2 : ℚ) ^ p := by
  conv_rhs => rw [← Int.toNat_of_nonneg hp]
  rw [zpow_natCast]
  push_cast
  rfl

/-- A finite rounding result is zero or a value `m * 2 ^ k` that is its own rounding. -/
theorem roundBinary_fin_rep (prec emin emax : ℤ) (negative : Bool) (q x : ℚ) (hprec : 1 ≤ prec)
    (h : roundBinary prec emin emax negative q = .fin x) :
    x = 0 ∨ ∃ m k : ℤ, m ≠ 0 ∧ x = (m : ℚ) * 2 ^ k ∧ |(m : ℚ)| < 2 ^ prec
      ∧ emin - (prec - 1) ≤ k ∧ |(m : ℚ)| * 2 ^ k < 2 ^ (emax + 1) := by
  unfold roundBinary at h
  by_cases hq : q = 0
  · left
    cases negative <;> simp [hq, Float64.zero] at h
    exact h.symm
  · simp only [hq, if_false] at h
    obtain ⟨u, hu⟩ : ∃ u, max (Int.log 2 |q|) emin - (prec - 1) = u := ⟨_, rfl⟩
    rw [hu] at h
    obtain ⟨N, hN⟩ : ∃ N, roundHalfEven (|q| / 2 ^ u) = N := ⟨_, rfl⟩
    rw [hN] at h
    have hu0 : (0 : ℚ) < 2 ^ u := by positivity
    have habs : 0 < |q| := abs_pos.2 hq
    have hNnn : 0 ≤ N := by
      rw [← hN]
      exact roundHalfEven_nonneg _ (div_nonneg (le_of_lt habs) (le_of_lt hu0))
    have hlt : |q| / 2 ^ u < (((2 : ℤ) ^ prec.toNat : ℤ) : ℚ) := by
      rw [zpow_toNat prec (by omega), div_lt_iff₀ hu0, ← zpow_add₀ (by norm_num : (2 : ℚ) ≠ 0)]
      refine lt_of_lt_of_le (lt_zpow_log_succ |q|) ?_
      apply zpow_le_zpow_right₀ (by norm_num)
      have := le_max_left (Int.log 2 |q|) emin
      omega
    have hNle : N ≤ 2 ^ prec.toNat := by
      rw [← hN]
      exact roundHalfEven_le _ _ hlt
    by_cases hov : (2 : ℚ) ^ (emax + 1) ≤ (N : ℚ) * 2 ^ u
    · simp [hov, Float64.inf] at h
      split at h <;> simp at h
    · simp only [hov, if_false] at h
      by_cases hN0 : N = 0
      · left
        simp only [hN0, if_true, Float64.zero] at h
        split at h
        · simp at h
        · simpa using h.symm
      · right
        simp only [hN0, if_false, Float64.fin.injEq] at h
        have hNpos : 0 < N := lt_of_le_of_ne hNnn (Ne.symm hN0)
        have hNq : (0 : ℚ) < N := by exact_mod_cast hNpos
        have hov' : (N : ℚ) * 2 ^ u < 2 ^ (emax + 1) := not_le.1 hov
        have hku : emin - (prec - 1) ≤ u := by
          have := le_max_right (Int.log 2 |q|) emin
          omega
        rcases lt_or_eq_of_le hNle with hlt' | heq
        · have hNq' : (N : ℚ) < 2 ^ prec := by
            rw [← zpow_toNat prec (by omega)]
            exact_mod_cast hlt'
          by_cases hpos : 0 < q
          · refine ⟨N, u, hN0, ?_, ?_, hku, ?_⟩
            · rw [← h, if_pos hpos]
            · rw [abs_of_pos hNq]; exact hNq'
            · rw [abs_of_pos hNq]; exact hov'
          · refine ⟨-N, u, by omega, ?_, ?_, hku, ?_⟩
            · rw [← h, if_neg hpos]; push_cast; ring
            · push_cast; rw [abs_neg, abs_of_pos hNq]; exact hNq'
            · push_cast; rw [abs_neg, abs_of_pos hNq]; exact hov'
        · have hNq' : (N : ℚ) = 2 ^ prec := by
            rw [← zpow_toNat prec (by omega), heq]
          have hhalf : (((2 : ℤ) ^ (prec - 1).toNat : ℤ) : ℚ) = 2 ^ (prec - 1) :=
            zpow_toNat (prec - 1) (by omega)
          have hsplit : (2 : ℚ) ^ prec * 2 ^ u = 2 ^ (prec - 1) * 2 ^ (u + 1) := by
            rw [← zpow_add₀ (by norm_num : (2 : ℚ) ≠ 0),
              ← zpow_add₀ (by norm_num : (2 : ℚ) ≠ 0)]
            congr 1
            ring
          have hsmall : (2 : ℚ) ^ (prec - 1) < 2 ^ prec :=
            zpow_lt_zpow_right₀ (by norm_num) (by omega)
          have hpp : (0 : ℚ) < 2 ^ (prec - 1) := by positivity
          by_cases hpos : 0 < q
          · refine ⟨2 ^ (prec - 1).toNat, u + 1, by positivity, ?_, ?_, by omega, ?_⟩
            · rw [← h, if_pos hpos, hhalf, hNq', hsplit]
            · rw [hhalf, abs_of_pos hpp]; exact hsmall
            · rw [hhalf, abs_of_pos hpp, ← hsplit, ← hNq']; exact hov'
          · refine ⟨-(2 ^ (prec - 1).toNat), u + 1, by simp, ?_, ?_, by omega, ?_⟩
            · rw [← h, if_neg hpos, Int.cast_neg, hhalf, hNq', hsplit]; ring
            · rw [Int.cast_neg, abs_neg, hhalf, abs_of_pos hpp]; exact hsmall
            · rw [Int.cast_neg, abs_neg, hhalf, abs_of_pos hpp, ← hsplit, ← hNq']; exact hov'

theorem roundBinary_idem (prec emin emax : ℤ) (n n2 : Bool) (q x : ℚ) (hprec : 1 ≤ prec)
    (h : roundBinary prec emin emax n q = .fin x) (hx : x ≠ 0) :
    roundBinary prec emin emax n2 x = .fin x := by
  rcases roundBinary_fin_rep prec emin emax n q x hprec h with h0 | ⟨m, k, hm0, rfl, hm, hk, hov⟩
  · exact absurd h0 hx
  · exact roundBinary_exact prec emin emax n2 m k hm0 hm hk hov

theorem roundBinary_half (prec emin emax : ℤ) (n n2 : Bool) (q x : ℚ) (hprec : 1 ≤ prec)
    (h : roundBinary prec emin emax n q = .fin x) (hx : (2 : ℚ) ^ (emin + 1) ≤ |x|) :
    roundBinary prec emin emax n2 (x / 2) = .fin (x / 2) := by
  rcases roundBinary_fin_rep prec emin emax n q x hprec h with h0 | ⟨m, k, hm0, rfl, hm, hk, hov⟩
  · rw [h0, abs_zero] at hx
    exact absurd hx (not_le.2 (by positivity))
  · have h2k : (0 : ℚ) < 2 ^ k := by positivity
    have hk1 : emin - (prec - 1) ≤ k - 1 := by
      by_contra hcon
      have hkeq : k = emin - (prec - 1) := by omega
      rw [abs_mul, abs_of_pos h2k] at hx
      have : |(m : ℚ)| * 2 ^ k < 2 ^ (emin + 1) := by
        calc |(m : ℚ)| * 2 ^ k < 2 ^ prec * 2 ^ k := mul_lt_mul_of_pos_right hm h2k
          _ = 2 ^ (emin + 1) := by
            rw [← zpow_add₀ (by norm_num : (2 : ℚ) ≠ 0)]
            congr 1
            omega
      exact absurd hx (not_le.2 this)
    have hrew : (m : ℚ) * 2 ^ k / 2 = (m : ℚ) * 2 ^ (k - 1) := by
      rw [zpow_sub_one₀ (by norm_num : (2 : ℚ) ≠ 0)]
      ring
    rw [hrew]
    apply roundBinary_exact prec emin emax n2 m (k - 1) hm0 hm hk1
    refine lt_trans ?_ hov
    apply mul_lt_mul_of_pos_left _ (abs_pos.2 (by exact_mod_cast hm0))
    exact zpow_lt_zpow_right₀ (by norm_num) (by omega)

theorem roundBinary_double (prec emin emax : ℤ) (n n2 : Bool) (q x : ℚ) (hprec : 1 ≤ prec)
    (h : roundBinary prec emin emax n q = .fin x) (hx0 : x ≠ 0) (hx : |x| < (2 : ℚ) ^ emax) :
    roundBinary prec emin emax n2 (x * 2) = .fin (x * 2) := by
  rcases roundBinary_fin_rep prec emin emax n q x hprec h with h0 | ⟨m, k, hm0, rfl, hm, hk, hov⟩
  · exact absurd h0 hx0
  · have h2k : (0 : ℚ) < 2 ^ k := by positivity
    have hrew : (m : ℚ) * 2 ^ k * 2 = (m : ℚ) * 2 ^ (k + 1) := by
      rw [zpow_add_one₀ (by norm_num : (2 : ℚ) ≠ 0)]
      ring
    rw [hrew]
    apply roundBinary_exact prec emin emax n2 m (k + 1) hm0 hm (by omega)
    rw [abs_mul, abs_of_pos h2k] at hx
    rw [zpow_add_one₀ (by norm_num : (2 : ℚ) ≠ 0), zpow_add_one₀ (by norm_num : (2 : ℚ) ≠ 0),
      ← mul_assoc]
    exact mul_lt_mul_of_pos_right hx (by norm_num)

theorem roundBinary_zero (prec emin emax : ℤ) (negative : Bool) :
    roundBinary prec emin emax negative 0 = Float64.zero negative := by
  simp [roundBinary]

theorem roundBinary_intCast (prec emin emax : ℤ) (negative : Bool) (n : ℤ) (hn : n ≠ 0)
    (hprec : |(n : ℚ)| < 2 ^ prec) (hemin : emin - (prec - 1) ≤ 0)
    (hover : |(n : ℚ)| < 2 ^ (emax + 1)) :
    roundBinary prec emin emax negative (n : ℚ) = .fin (n : ℚ) := by
  have h := roundBinary_exact prec emin emax negative n 0 hn hprec hemin (by simpa using hover)
  simpa using h

/-- A positive value that is not above half of the smallest subnormal rounds to zero. -/
theorem roundBinary_underflow (prec emin emax : ℤ) (negative : Bool) (q : ℚ) (hprec : 1 ≤ prec)
    (hq : 0 < q) (hsmall : q ≤ 2 ^ (emin - prec)) :
    roundBinary prec emin emax negative q = .fin 0 := by
  have habs : |q| = q := abs_of_pos hq
  have hlog : Int.log 2 q < emin := by
    apply log_lt_of_lt_zpow q emin hq
    refine lt_of_le_of_lt hsmall ?_
    exact zpow_lt_zpow_right₀ (by norm_num) (by omega)
  have hmaxe : max (Int.log 2 q) emin = emin := max_eq_right (le_of_lt hlog)
  have hu0 : (0 : ℚ) < 2 ^ (emin - (prec - 1)) := by positivity
  have hx0 : 0 < q / 2 ^ (emin - (prec - 1)) := div_pos hq hu0
  have hx : q / 2 ^ (emin - (prec - 1)) ≤ 1 / 2 := by
    rw [div_le_iff₀ hu0]
    refine le_trans hsmall (le_of_eq ?_)
    have : emin - prec = (emin - (prec - 1)) - 1 := by ring
    rw [this, zpow_sub_one₀ (by norm_num : (2 : ℚ) ≠ 0)]
    ring
  have hfloor : ⌊q / 2 ^ (emin - (prec - 1))⌋ = 0 := by
    rw [Int.floor_eq_iff]
    constructor
    · simpa using le_of_lt hx0
    · have : q / 2 ^ (emin - (prec - 1)) < 1 := lt_of_le_of_lt hx (by norm_num)
      simpa using this
  have hround : roundHalfEven (q / 2 ^ (emin - (prec - 1))) = 0 := by
    unfold roundHalfEven
    rw [hfloor]
    simp only [Int.cast_zero, sub_zero, not_lt.2 hx, false_or]
    norm_num
  have hpow : ¬ ((2 : ℚ) ^ (emax + 1) ≤ 0) := not_le.2 (by positivity)
  simp [roundBinary, ne_of_gt hq, habs, hmaxe, hround, hpow, Float64.zero, not_lt.2 (le_of_lt hq)]

/-- A positive value in the normal range whose scaled significand lies less than one
half above the integer `N` rounds down to `N` units. -/
theorem roundBinary_down (prec emin emax : ℤ) (negative : Bool) (q : ℚ) (e N : ℤ)
    (h1 : (2 : ℚ) ^ e ≤ q) (h2 : q < 2 ^ (e + 1)) (he : emin ≤ e)
    (hN1 : (N : ℚ) ≤ q / 2 ^ (e - (prec - 1))) (hN2 : q / 2 ^ (e - (prec - 1)) - N < 1 / 2)
    (hN0 : N ≠ 0) (hov : (N : ℚ) * 2 ^ (e - (prec - 1)) < 2 ^ (emax + 1)) :
    roundBinary prec emin emax negative q = .fin ((N : ℚ) * 2 ^ (e - (prec - 1))) := by
  have hq : 0 < q := lt_of_lt_of_le (by positivity) h1
  have habs : |q| = q := abs_of_pos hq
  have hmaxe : max (Int.log 2 q) emin = e := by
    rw [log_eq_of_bounds q e h1 h2]
    exact max_eq_left he
  have hfloor : ⌊q / 2 ^ (e - (prec - 1))⌋ = N := by
    rw [Int.floor_eq_iff]
    constructor
    · exact hN1
    · linarith
  have hround : roundHalfEven (q / 2 ^ (e - (prec - 1))) = N := by
    unfold roundHalfEven
    rw [hfloor]
    have hne : q / 2 ^ (e - (prec - 1)) - N ≠ 1 / 2 := ne_of_lt hN2
    rw [if_neg]
    rintro (h | ⟨h, _⟩)
    · exact absurd h (not_lt.2 (le_of_lt hN2))
    · exact hne h
  simp [roundBinary, ne_of_gt hq, habs, hmaxe, hround, not_le.2 hov, hN0, hq]

/-! ## Float coercion -/

/-- C8 as stated fails: the float `3000000000` is exactly integral, and `appendArg`
appends a 32-bit integer for it, which is `-2147483648` on amd64 and on no platform
has the value `3000000000`. -/
theorem appendArg_float64_out_of_int32_range :
    appendArg amd64 [] (GoVal.float64 (Float64.fin 3000000000))
        = [OscArg.int32 (-2147483648)]
    ∧ ¬ ∃ p : Platform,
        appendArg p [] (GoVal.float64 (Float64.fin 3000000000))
          = [OscArg.int32 3000000000] := by
  have htr : truncQ (3000000000 : ℚ) = 3000000000 := by
    have := truncQ_intCast 3000000000
    simpa using this
  have hround : roundToBits 53 3000000000 = 3000000000 :=
    roundToBits_small 53 3000000000 (by decide)
  have key : ∀ p : Platform,
      appendArg p [] (GoVal.float64 (Float64.fin 3000000000))
        = [OscArg.int32 (wrapInt 32 (p.int32OfFloat (Float64.fin 3000000000)))] := by
    intro p
    simp [appendArg, toInt64, toInt32, ofInt64, htr, hround, Float64.eq]
  refine ⟨?_, ?_⟩
  · rw [key]
    decide
  · rintro ⟨p, hp⟩
    rw [key] at hp
    have hr := (wrapInt_range 32 (p.int32OfFloat (Float64.fin 3000000000))).2
    simp only [List.cons.injEq, OscArg.int32.injEq, and_true] at hp
    rw [hp] at hr
    norm_num at hr

/-- C8, amended: for a float `v` given to `appendArg`, if `v` is an integer `n` of the
32-bit range `-2^31 ≤ n < 2^31`, exactly one 32-bit integer argument of value `n` is
appended; if `v` is not integral (a fraction `q`, NaN or an infinity), exactly one
32-bit float argument, `float32(v)`, is appended.  The negative zero is integral: the
integer 0 is appended for it. -/
theorem appendArg_float64_coercion (p : Platform) (msg : List OscArg) (n : Int) (q : ℚ)
    (hlo : -(2 ^ 31) ≤ n) (hhi : n < 2 ^ 31) (hq : q.den ≠ 1) :
    appendArg p msg (GoVal.float64 (Float64.fin (n : ℚ))) = msg ++ [OscArg.int32 n]
    ∧ appendArg p msg (GoVal.float64 (Float64.fin q))
        = msg ++ [OscArg.float32 (toFloat32 (Float64.fin q))]
    ∧ appendArg p msg (GoVal.float64 Float64.nan) = msg ++ [OscArg.float32 Float64.nan]
    ∧ appendArg p msg (GoVal.float64 Float64.posInf)
        = msg ++ [OscArg.float32 Float64.posInf]
    ∧ appendArg p msg (GoVal.float64 Float64.negInf)
        = msg ++ [OscArg.float32 Float64.negInf]
    ∧ appendArg p msg (GoVal.float64 Float64.negZero) = msg ++ [OscArg.int32 0] := by
  refine ⟨appendArg_float64_int p msg n hlo hhi, appendArg_float64_fraction p msg q hq,
    ?_, ?_, ?_, ?_⟩
  · simp [appendArg, Float64.eq, toFloat32, ofInt64]
  · simp [appendArg, Float64.eq, toFloat32, ofInt64]
  · simp [appendArg, Float64.eq, toFloat32, ofInt64]
  · simp [appendArg, Float64.eq, Float64.toRat, toInt64, toInt32, ofInt64, roundToBits]

/-- Witness of C8, amended: the floats `5` and `1/2`. -/
theorem appendArg_float64_coercion_witness :
    (-(2 ^ 31) ≤ (5 : Int) ∧ (5 : Int) < 2 ^ 31 ∧ (1 / 2 : ℚ).den ≠ 1)
    ∧ appendArg amd64 [] (GoVal.float64 (Float64.fin ((5 : Int) : ℚ))) = [] ++ [OscArg.int32 5]
    ∧ appendArg amd64 [] (GoVal.float64 (Float64.fin (1 / 2)))
        = [] ++ [OscArg.float32 (toFloat32 (Float64.fin (1 / 2)))] :=
  ⟨⟨by decide, by decide, by norm_num⟩,
   (appendArg_float64_coercion amd64 [] 5 (1 / 2) (by decide) (by decide) (by norm_num)).1,
   (appendArg_float64_coercion amd64 [] 5 (1 / 2) (by decide) (by decide) (by norm_num)).2.1⟩

/-! ## Speed factor -/

/-- C10 as stated fails: with the speed factors `-1` and `0` the replayer sends the
recorded message and ends with exit status 0. -/
theorem nonpositive_speed_is_replayed :
    Float64.le (Float64.fin (-1)) (Float64.fin 0) = true
    ∧ (replayerMain amd64 "log.json" (Float64.fin (-1))
        (Except.ok [{ time := 0, address := "/a", data := Json.str "x" }])
        (fun _ => Float64.fin 0) (fun _ => false)).sends
      = [{ Address := "/a", Arguments := [OscArg.str "x"] }]
    ∧ (replayerMain amd64 "log.json" (Float64.fin (-1))
        (Except.ok [{ time := 0, address := "/a", data := Json.str "x" }])
        (fun _ => Float64.fin 0) (fun _ => false)).exitCode = 0
    ∧ Float64.le (Float64.fin 0) (Float64.fin 0) = true
    ∧ (replayerMain amd64 "log.json" (Float64.fin 0)
        (Except.ok [{ time := 0, address := "/a", data := Json.str "x" }])
        (fun _ => Float64.fin 0) (fun _ => false)).sends
      = [{ Address := "/a", Arguments := [OscArg.str "x"] }]
    ∧ (replayerMain amd64 "log.json" (Float64.fin 0)
        (Except.ok [{ time := 0, address := "/a", data := Json.str "x" }])
        (fun _ => Float64.fin 0) (fun _ => false)).exitCode = 0 := by
  refine ⟨by decide, ?_, ?_, by decide, ?_, ?_⟩ <;>
    simp [replayerMain, replay_sends, replay_exitCode, decodeRecord, decodeVal,
      buildArguments, appendArg]

/-- C10, amended: the replayer does not validate the speed factor.  For every speed
factor `<= 0`, a named file and a document that was loaded, `main` runs the replay
loop as for any other speed factor: one message per record is handed to
`client.Send`, in file order, and the exit status is 0. -/
theorem nonpositive_speed_not_rejected (p : Platform) (jsonFile : String)
    (speedFactor : Float64) (doc : List JsonRecord) (elapsed : Nat → Float64)
    (sendFails : Nat → Bool) (hfile : jsonFile ≠ "")
    (hspeed : Float64.le speedFactor (Float64.fin 0) = true) :
    replayerMain p jsonFile speedFactor (Except.ok doc) elapsed sendFails
        = replay p speedFactor (doc.map decodeRecord) elapsed sendFails
    ∧ (replayerMain p jsonFile speedFactor (Except.ok doc) elapsed sendFails).sends
        = doc.map (fun r =>
            { Address := r.address, Arguments := buildArguments p (decodeVal r.data) })
    ∧ (replayerMain p jsonFile speedFactor (Except.ok doc) elapsed sendFails).exitCode = 0 := by
  have _ := hspeed
  have hmain : replayerMain p jsonFile speedFactor (Except.ok doc) elapsed sendFails
      = replay p speedFactor (doc.map decodeRecord) elapsed sendFails := by
    simp [replayerMain, hfile]
  refine ⟨hmain, ?_, ?_⟩
  · rw [hmain, replay_sends]
    simp [decodeRecord]
  · rw [hmain, replay_exitCode]

/-- Witness of C10, amended: speed `-2` and a document of two records. -/
theorem nonpositive_speed_not_rejected_witness :
    ("log.json" ≠ "" ∧ Float64.le (Float64.fin (-2)) (Float64.fin 0) = true)
    ∧ (replayerMain amd64 "log.json" (Float64.fin (-2))
        (Except.ok [{ time := 0, address := "/a", data := Json.bool true },
                    { time := 1, address := "/b", data := Json.null }])
        (fun _ => Float64.fin 0) (fun _ => false)).exitCode = 0 :=
  ⟨⟨by decide, by decide⟩,
   (nonpositive_speed_not_rejected amd64 "log.json" (Float64.fin (-2))
      [{ time := 0, address := "/a", data := Json.bool true },
       { time := 1, address := "/b", data := Json.null }]
      (fun _ => Float64.fin 0) (fun _ => false) (by decide) (by decide)).2.2⟩

/-! ## Helper lemmas on the schedule -/

theorem sub_self_finite (x : Float64) (h : x.isFinite = true) : x.sub x = Float64.fin 0 := by
  cases x <;>
    simp [Float64.sub, Float64.isNaN, Float64.isFinite, Float64.isNeg, Float64.toRat, round64,
      roundBinary_zero, Float64.zero] at h ⊢

theorem zero_div_positive (s : Float64) (hs : Float64.lt (Float64.fin 0) s = true) :
    (Float64.fin 0).div s = Float64.fin 0 := by
  cases s with
  | fin b =>
    have hb : 0 < b := by simpa [Float64.lt, Float64.toRat] using hs
    simp [Float64.div, Float64.isNaN, Float64.isFinite, Float64.isNeg, Float64.toRat, round64,
      roundBinary_zero, Float64.zero, ne_of_gt hb, not_lt.2 (le_of_lt hb)]
  | negZero => simp [Float64.lt, Float64.toRat] at hs
  | posInf =>
    simp [Float64.div, Float64.isNaN, Float64.isFinite, Float64.isNeg, Float64.zero]
  | negInf => simp [Float64.lt] at hs
  | nan => simp [Float64.lt] at hs

theorem sub_eq_fin_rounded (x y : Float64) (r : ℚ) (h : x.sub y = Float64.fin r) :
    ∃ n q, round64 n q = Float64.fin r := by
  unfold Float64.sub at h
  split at h
  · simp at h
  · split at h
    · split at h
      · simp at h
      · rename_i hx _
        rw [h] at hx
        simp [Float64.isFinite] at hx
    · split at h
      · simp only [Float64.inf] at h
        split at h <;> simp at h
      · exact ⟨_, _, h⟩

theorem div_one_of_rounded (d : Float64)
    (hd : ∀ r, d = Float64.fin r → ∃ n q, round64 n q = Float64.fin r) :
    d.div (Float64.fin 1) = d := by
  cases d with
  | fin r =>
    by_cases hr : r = 0
    · simp [hr, Float64.div, Float64.isNaN, Float64.isFinite, Float64.isNeg, Float64.toRat,
        round64, roundBinary_zero, Float64.zero]
    · obtain ⟨n, q, hnq⟩ := hd r rfl
      have := roundBinary_idem 53 (-1022) 1023 n
        ((Float64.fin r).isNeg != (Float64.fin 1).isNeg) q r (by norm_num) hnq hr
      simpa [Float64.div, Float64.isNaN, Float64.isFinite, Float64.toRat, round64] using this
  | negZero =>
    simp [Float64.div, Float64.isNaN, Float64.isFinite, Float64.isNeg, Float64.toRat, round64,
      roundBinary_zero, Float64.zero]
  | posInf => simp [Float64.div, Float64.isNaN, Float64.isFinite, Float64.isNeg, Float64.inf]
  | negInf => simp [Float64.div, Float64.isNaN, Float64.isFinite, Float64.isNeg, Float64.inf]
  | nan => simp [Float64.div, Float64.isNaN]

theorem sub_div_one (x y : Float64) : (x.sub y).div (Float64.fin 1) = x.sub y :=
  div_one_of_rounded _ (fun r h => sub_eq_fin_rounded x y r h)

theorem div_two_of_rounded (n : Bool) (q r : ℚ) (hr : round64 n q = Float64.fin r)
    (hx : r = 0 ∨ (2 : ℚ) ^ (-1021 : ℤ) ≤ |r|) :
    (Float64.fin r).div (Float64.fin 2) = Float64.fin (r / 2) := by
  by_cases h0 : r = 0
  · simp [h0, Float64.div, Float64.isNaN, Float64.isFinite, Float64.isNeg, Float64.toRat,
      round64, roundBinary_zero, Float64.zero]
  · have hx' : (2 : ℚ) ^ ((-1022 : ℤ) + 1) ≤ |r| := by
      rcases hx with hx | hx
      · exact absurd hx h0
      · simpa using hx
    have := roundBinary_half 53 (-1022) 1023 n
      ((Float64.fin r).isNeg != (Float64.fin 2).isNeg) q r (by norm_num) hr hx'
    simpa [Float64.div, Float64.isNaN, Float64.isFinite, Float64.toRat, round64] using this

theorem div_half_of_rounded (n : Bool) (q r : ℚ) (hr : round64 n q = Float64.fin r)
    (hx : |r| < (2 : ℚ) ^ (1023 : ℤ)) :
    (Float64.fin r).div (Float64.fin (1 / 2)) = Float64.fin (r * 2) := by
  by_cases h0 : r = 0
  · simp [h0, Float64.div, Float64.isNaN, Float64.isFinite, Float64.isNeg, Float64.toRat,
      round64, roundBinary_zero, Float64.zero]
  · have := roundBinary_double 53 (-1022) 1023 n
      ((Float64.fin r).isNeg != (Float64.fin (1 / 2)).isNeg) q r (by norm_num) hr h0 hx
    simpa [Float64.div, Float64.isNaN, Float64.isFinite, Float64.toRat, round64] using this

theorem replay_scheduledTimes (p : Platform) (s : Float64) (first : RecordedMessage)
    (rest : List RecordedMessage) (elapsed : Nat → Float64) (sendFails : Nat → Bool) :
    (replay p s (first :: rest) elapsed sendFails).scheduledTimes
      = (first :: rest).map (fun m => (m.Time.sub first.Time).div s) := by
  simp only [replay, Outcome.scheduledTimes, Outcome.passes]
  rw [replayLoop_scheduledTime]
  rfl

theorem round64_intCast (negative : Bool) (n : ℤ) (hn : n ≠ 0) (h : |(n : ℚ)| < 2 ^ (53 : ℤ)) :
    round64 negative (n : ℚ) = Float64.fin (n : ℚ) := by
  apply roundBinary_intCast 53 (-1022) 1023 negative n hn h (by norm_num)
  refine lt_trans h ?_
  exact zpow_lt_zpow_right₀ (by norm_num) (by norm_num)

theorem round64_one (negative : Bool) : round64 negative 1 = Float64.fin 1 := by
  have := round64_intCast negative 1 (by norm_num) (by norm_num)
  simpa using this

theorem round64_two (negative : Bool) : round64 negative 2 = Float64.fin 2 := by
  have := round64_intCast negative 2 (by norm_num) (by norm_num)
  simpa using this

theorem round64_third (negative : Bool) :
    round64 negative (1 / 3) = Float64.fin (6004799503160661 / 18014398509481984) := by
  have := roundBinary_down 53 (-1022) 1023 negative (1 / 3) (-2) 6004799503160661
    (by norm_num) (by norm_num) (by norm_num) (by norm_num) (by norm_num) (by norm_num)
    (by norm_num)
  rw [round64, this]
  norm_num

theorem round64_min_subnormal (negative : Bool) :
    round64 negative (2 ^ (-1074 : ℤ)) = Float64.fin (2 ^ (-1074 : ℤ)) := by
  have := roundBinary_exact 53 (-1022) 1023 negative 1 (-1074) (by norm_num) (by norm_num)
    (by norm_num) (by
      rw [Int.cast_one, abs_one, one_mul]
      exact zpow_lt_zpow_right₀ (by norm_num) (by norm_num))
  simp only [Int.cast_one, one_mul] at this
  exact this

theorem round64_half_min_subnormal (negative : Bool) :
    round64 negative (2 ^ (-1074 : ℤ) / 2) = Float64.fin 0 := by
  apply roundBinary_underflow 53 (-1022) 1023 negative _ (by norm_num) (by positivity)
  apply le_of_eq
  rw [show ((-1022 : ℤ) - 53) = (-1074 : ℤ) - 1 by norm_num,
    zpow_sub_one₀ (by norm_num : (2 : ℚ) ≠ 0)]
  ring

theorem round64_max_power (negative : Bool) :
    round64 negative (2 ^ (1023 : ℤ)) = Float64.fin (2 ^ (1023 : ℤ)) := by
  have := roundBinary_exact 53 (-1022) 1023 negative 1 1023 (by norm_num) (by norm_num)
    (by norm_num) (by
      rw [Int.cast_one, abs_one, one_mul]
      exact zpow_lt_zpow_right₀ (by norm_num) (by norm_num))
  simp only [Int.cast_one, one_mul] at this
  exact this

theorem round64_overflow (negative : Bool) :
    round64 negative (2 ^ (1023 : ℤ) * 2) = Float64.posInf := by
  have hq : (2 : ℚ) ^ (1023 : ℤ) * 2 = 2 ^ (1024 : ℤ) := by
    rw [show (1024 : ℤ) = 1023 + 1 by norm_num, zpow_add_one₀ (by norm_num : (2 : ℚ) ≠ 0)]
  have hpos : (0 : ℚ) < 2 ^ (1024 : ℤ) := by positivity
  have hlog : Int.log 2 |(2 : ℚ) ^ (1024 : ℤ)| = 1024 := by
    rw [abs_of_pos hpos]
    have := Int.log_zpow (R := ℚ) (b := 2) (by norm_num) 1024
    simpa using this
  have hmax : max (1024 : ℤ) (-1022) - (53 - 1) = 972 := by norm_num
  have hscaled : |(2 : ℚ) ^ (1024 : ℤ)| / 2 ^ (972 : ℤ) = (((2 : ℤ) ^ 52 : ℤ) : ℚ) := by
    rw [abs_of_pos hpos, ← zpow_sub₀ (by norm_num : (2 : ℚ) ≠ 0)]
    norm_num
  have hback : (((2 : ℤ) ^ 52 : ℤ) : ℚ) * 2 ^ (972 : ℤ) = 2 ^ (1024 : ℤ) := by
    rw [← hscaled, abs_of_pos hpos]
    field_simp
  rw [hq]
  simp only [round64, roundBinary, hlog, hmax, hscaled, roundHalfEven_intCast, hback]
  simp [ne_of_gt hpos, hpos, Float64.inf]

theorem roundBinary_sign_irrelevant (prec emin emax : ℤ) (n n2 : Bool) (q : ℚ) (hq : q ≠ 0) :
    roundBinary prec emin emax n q = roundBinary prec emin emax n2 q := by
  simp [roundBinary, hq]

theorem scheduledTime_exact (t t0 sq : ℚ) (hs : 0 < sq)
    (hd : round64 false (t - t0) = Float64.fin (t - t0))
    (hq : round64 false ((t - t0) / sq) = Float64.fin ((t - t0) / sq)) :
    scheduledTime (Float64.fin t) (Float64.fin t0) (Float64.fin sq)
      = Float64.fin ((t - t0) / sq) := by
  have hsub : (Float64.fin t).sub (Float64.fin t0) = Float64.fin (t - t0) := by
    by_cases h0 : t - t0 = 0
    · have ht : t = t0 := sub_eq_zero.1 h0
      rw [ht, sub_self_finite (Float64.fin t0) rfl, sub_self]
    · rw [← hd]
      simp only [Float64.sub, Float64.isNaN, Float64.isFinite, Float64.toRat, round64]
      exact roundBinary_sign_irrelevant 53 (-1022) 1023 _ _ _ h0
  rw [scheduledTime, hsub]
  by_cases h0 : t - t0 = 0
  · rw [h0, zero_div, zero_div_positive _ (by simpa [Float64.lt, Float64.toRat] using hs)]
  · have hne : (t - t0) / sq ≠ 0 := div_ne_zero h0 (ne_of_gt hs)
    rw [← hq]
    simp only [Float64.div, Float64.isNaN, Float64.isFinite, Float64.toRat, round64,
      ne_of_gt hs]
    exact roundBinary_sign_irrelevant 53 (-1022) 1023 _ _ _ hne

theorem sub_fin_zero (t : ℚ) :
    (Float64.fin t).sub (Float64.fin 0) = round64 (decide (t < 0)) t := by
  simp [Float64.sub, Float64.isNaN, Float64.isFinite, Float64.isNeg, Float64.toRat]

theorem div_fin_fin (a b : ℚ) (hb : b ≠ 0) :
    (Float64.fin a).div (Float64.fin b)
      = round64 (decide (a < 0) != decide (b < 0)) (a / b) := by
  simp [Float64.div, Float64.isNaN, Float64.isFinite, Float64.isNeg, Float64.toRat, hb]

/-! ## Replay schedule -/

/-- C7 as stated fails: the arithmetic of the replay loop is `float64`, not exact.
With times `[0, 1]` and speed 3 the scheduled offset of the second event is the
`float64` `6004799503160661 / 2^54`, not `1/3`.  With times `[0, 2^-1074]` the offset
`2^-1074` at speed 1 becomes `0` at speed 2, which is not its half; with times
`[0, 2^1023]` the offset `2^1023` at speed 1 becomes `+Inf` at speed 0.5, which is not
its double. -/
theorem scheduled_offset_is_rounded :
    (replay amd64 (Float64.fin 3)
        [{ Time := Float64.fin 0, Address := "/a", Data := GoVal.nil },
         { Time := Float64.fin 1, Address := "/b", Data := GoVal.nil }]
        (fun _ => Float64.fin 0) (fun _ => false)).scheduledTimes
      = [Float64.fin 0, Float64.fin (6004799503160661 / 18014398509481984)]
    ∧ (6004799503160661 / 18014398509481984 : ℚ) ≠ (1 - 0) / 3
    ∧ (replay amd64 (Float64.fin 1)
        [{ Time := Float64.fin 0, Address := "/a", Data := GoVal.nil },
         { Time := Float64.fin (2 ^ (-1074 : ℤ)), Address := "/b", Data := GoVal.nil }]
        (fun _ => Float64.fin 0) (fun _ => false)).scheduledTimes
      = [Float64.fin 0, Float64.fin (2 ^ (-1074 : ℤ))]
    ∧ (replay amd64 (Float64.fin 2)
        [{ Time := Float64.fin 0, Address := "/a", Data := GoVal.nil },
         { Time := Float64.fin (2 ^ (-1074 : ℤ)), Address := "/b", Data := GoVal.nil }]
        (fun _ => Float64.fin 0) (fun _ => false)).scheduledTimes
      = [Float64.fin 0, Float64.fin 0]
    ∧ (replay amd64 (Float64.fin 1)
        [{ Time := Float64.fin 0, Address := "/a", Data := GoVal.nil },
         { Time := Float64.fin (2 ^ (1023 : ℤ)), Address := "/b", Data := GoVal.nil }]
        (fun _ => Float64.fin 0) (fun _ => false)).scheduledTimes
      = [Float64.fin 0, Float64.fin (2 ^ (1023 : ℤ))]
    ∧ (replay amd64 (Float64.fin (1 / 2))
        [{ Time := Float64.fin 0, Address := "/a", Data := GoVal.nil },
         { Time := Float64.fin (2 ^ (1023 : ℤ)), Address := "/b", Data := GoVal.nil }]
        (fun _ => Float64.fin 0) (fun _ => false)).scheduledTimes
      = [Float64.fin 0, Float64.posInf] := by
  have h00 : (Float64.fin 0).sub (Float64.fin 0) = Float64.fin 0 :=
    sub_self_finite (Float64.fin 0) rfl
  have hz : ∀ b : ℚ, 0 < b → (Float64.fin 0).div (Float64.fin b) = Float64.fin 0 := by
    intro b hb
    exact zero_div_positive _ (by simpa [Float64.lt, Float64.toRat] using hb)
  have hsmall : (2 : ℚ) ^ (-1074 : ℤ) ≠ 0 := by positivity
  have hbig : (2 : ℚ) ^ (1023 : ℤ) ≠ 0 := by positivity
  refine ⟨?_, by norm_num, ?_, ?_, ?_, ?_⟩
  · rw [replay_scheduledTimes]
    simp only [List.map_cons, List.map_nil, h00, hz 3 (by norm_num), sub_fin_zero, round64_one,
      div_fin_fin 1 3 (by norm_num), round64_third]
  · rw [replay_scheduledTimes]
    simp only [List.map_cons, List.map_nil, h00, hz 1 (by norm_num), sub_fin_zero,
      round64_min_subnormal, div_fin_fin _ 1 (by norm_num), div_one]
  · rw [replay_scheduledTimes]
    simp only [List.map_cons, List.map_nil, h00, hz 2 (by norm_num), sub_fin_zero,
      round64_min_subnormal, div_fin_fin _ 2 (by norm_num), round64_half_min_subnormal]
  · rw [replay_scheduledTimes]
    simp only [List.map_cons, List.map_nil, h00, hz 1 (by norm_num), sub_fin_zero,
      round64_max_power, div_fin_fin _ 1 (by norm_num), div_one]
  · rw [replay_scheduledTimes]
    have hdiv : (2 : ℚ) ^ (1023 : ℤ) / (1 / 2) = 2 ^ (1023 : ℤ) * 2 := by
      rw [div_div_eq_mul_div, div_one]
    simp only [List.map_cons, List.map_nil, h00, hz (1 / 2) (by norm_num), sub_fin_zero,
      round64_max_power, div_fin_fin _ (1 / 2) (by norm_num), hdiv, round64_overflow]

/-- C7, amended: for every non-empty event list whose first time is finite and every
speed factor `s > 0`, the scheduled offset of event `i` is the `float64` quotient
`(events[i].time - events[0].time) / s`, the difference and the quotient each rounded
to the nearest `float64`; it is the exact `(events[i].time - events[0].time) / s` when
the exact difference and quotient are `float64` values; the first event is scheduled
at offset 0; the offset at speed 1.0 is the `float64` difference itself; an offset `x`
at speed 1.0 is exactly `x / 2` at speed 2.0 when `x = 0` or `|x| >= 2^-1021` (no
underflow), and exactly `2 x` at speed 0.5 when `|x| < 2^1023` (no overflow); times
`[0, 1]` give the offsets `[0, 1]` at speed 1.0 and `[0, 2]` at speed 0.5. -/
theorem scheduled_offset_scales_with_speed (p : Platform) (first : RecordedMessage)
    (rest : List RecordedMessage) (s : Float64) (elapsed : Nat → Float64)
    (sendFails : Nat → Bool) (hfirst : first.Time.isFinite = true)
    (hs : Float64.lt (Float64.fin 0) s = true) :
    (replay p s (first :: rest) elapsed sendFails).scheduledTimes
      = (first :: rest).map (fun m => (m.Time.sub first.Time).div s)
    ∧ (∀ (i : Nat) (m : RecordedMessage) (t t0 sq : ℚ),
        (first :: rest)[i]? = some m → m.Time = Float64.fin t → first.Time = Float64.fin t0 →
        s = Float64.fin sq → round64 false (t - t0) = Float64.fin (t - t0) →
        round64 false ((t - t0) / sq) = Float64.fin ((t - t0) / sq) →
        (replay p s (first :: rest) elapsed sendFails).scheduledTimes[i]?
          = some (Float64.fin ((t - t0) / sq)))
    ∧ (replay p s (first :: rest) elapsed sendFails).scheduledTimes.head?
        = some (Float64.fin 0)
    ∧ (replay p (Float64.fin 1) (first :: rest) elapsed sendFails).scheduledTimes
        = (first :: rest).map (fun m => m.Time.sub first.Time)
    ∧ (∀ (i : Nat) (x : ℚ),
        (replay p (Float64.fin 1) (first :: rest) elapsed sendFails).scheduledTimes[i]?
          = some (Float64.fin x) →
        (x = 0 ∨ (2 : ℚ) ^ (-1021 : ℤ) ≤ |x|) →
        (replay p (Float64.fin 2) (first :: rest) elapsed sendFails).scheduledTimes[i]?
          = some (Float64.fin (x / 2)))
    ∧ (∀ (i : Nat) (x : ℚ),
        (replay p (Float64.fin 1) (first :: rest) elapsed sendFails).scheduledTimes[i]?
          = some (Float64.fin x) →
        |x| < (2 : ℚ) ^ (1023 : ℤ) →
        (replay p (Float64.fin (1 / 2)) (first :: rest) elapsed sendFails).scheduledTimes[i]?
          = some (Float64.fin (x * 2)))
    ∧ (replay p (Float64.fin 1)
          [{ Time := Float64.fin 0, Address := "/a", Data := GoVal.float64 (Float64.fin 1) },
           { Time := Float64.fin 1, Address := "/b", Data := GoVal.float64 (Float64.fin 2) }]
          elapsed sendFails).scheduledTimes
        = [Float64.fin 0, Float64.fin 1]
    ∧ (replay p (Float64.fin (1 / 2))
          [{ Time := Float64.fin 0, Address := "/a", Data := GoVal.float64 (Float64.fin 1) },
           { Time := Float64.fin 1, Address := "/b", Data := GoVal.float64 (Float64.fin 2) }]
          elapsed sendFails).scheduledTimes
        = [Float64.fin 0, Float64.fin 2] := by
  have h00 : (Float64.fin 0).sub (Float64.fin 0) = Float64.fin 0 :=
    sub_self_finite (Float64.fin 0) rfl
  have hz : ∀ b : ℚ, 0 < b → (Float64.fin 0).div (Float64.fin b) = Float64.fin 0 := by
    intro b hb
    exact zero_div_positive _ (by simpa [Float64.lt, Float64.toRat] using hb)
  have hone : (replay p (Float64.fin 1) (first :: rest) elapsed sendFails).scheduledTimes
      = (first :: rest).map (fun m => m.Time.sub first.Time) := by
    rw [replay_scheduledTimes]
    apply List.map_congr_left
    intro m _
    exact sub_div_one _ _
  refine ⟨replay_scheduledTimes p s first rest elapsed sendFails, ?_, ?_, hone, ?_, ?_, ?_, ?_⟩
  · intro i m t t0 sq hm ht ht0 hsq hd hq
    have hpos : 0 < sq := by
      rw [hsq] at hs
      simpa [Float64.lt, Float64.toRat] using hs
    rw [replay_scheduledTimes, List.getElem?_map, hm, Option.map_some', ht, ht0, hsq]
    exact congrArg some (scheduledTime_exact t t0 sq hpos hd hq)
  · rw [replay_scheduledTimes]
    simp only [List.map_cons, List.head?_cons, sub_self_finite _ hfirst,
      zero_div_positive s hs]
  · intro i x hx hcond
    rw [hone, List.getElem?_map] at hx
    rw [replay_scheduledTimes, List.getElem?_map]
    cases hm : (first :: rest)[i]? with
    | none => simp [hm] at hx
    | some m =>
      rw [hm, Option.map_some', Option.some.injEq] at hx
      obtain ⟨n, q, hnq⟩ := sub_eq_fin_rounded _ _ _ hx
      rw [Option.map_some', hx]
      exact congrArg some (div_two_of_rounded n q x hnq hcond)
  · intro i x hx hcond
    rw [hone, List.getElem?_map] at hx
    rw [replay_scheduledTimes, List.getElem?_map]
    cases hm : (first :: rest)[i]? with
    | none => simp [hm] at hx
    | some m =>
      rw [hm, Option.map_some', Option.some.injEq] at hx
      obtain ⟨n, q, hnq⟩ := sub_eq_fin_rounded _ _ _ hx
      rw [Option.map_some', hx]
      exact congrArg some (div_half_of_rounded n q x hnq hcond)
  · rw [replay_scheduledTimes]
    simp only [List.map_cons, List.map_nil, h00, hz 1 (by norm_num), sub_fin_zero, round64_one,
      div_fin_fin 1 1 (by norm_num), div_one]
  · rw [replay_scheduledTimes]
    have hdiv : (1 : ℚ) / (1 / 2) = 2 := by norm_num
    simp only [List.map_cons, List.map_nil, h00, hz (1 / 2) (by norm_num), sub_fin_zero,
      round64_one, div_fin_fin 1 (1 / 2) (by norm_num), hdiv, round64_two]

/-- Witness of C7, amended: times `[0, 1, 3]` at speed 4. -/
theorem scheduled_offset_scales_with_speed_witness :
    ((Float64.fin 0).isFinite = true ∧ Float64.lt (Float64.fin 0) (Float64.fin 4) = true)
    ∧ (replay amd64 (Float64.fin 4)
        ({ Time := Float64.fin 0, Address := "/a", Data := GoVal.nil } ::
          [{ Time := Float64.fin 1, Address := "/b", Data := GoVal.nil },
           { Time := Float64.fin 3, Address := "/c", Data := GoVal.nil }])
        (fun _ => Float64.fin 0) (fun _ => false)).scheduledTimes.head?
      = some (Float64.fin 0) :=
  ⟨⟨by decide, by decide⟩,
   (scheduled_offset_scales_with_speed amd64
      { Time := Float64.fin 0, Address := "/a", Data := GoVal.nil }
      [{ Time := Float64.fin 1, Address := "/b", Data := GoVal.nil },
       { Time := Float64.fin 3, Address := "/c", Data := GoVal.nil }]
      (Float64.fin 4) (fun _ => Float64.fin 0) (fun _ => false) (by decide) (by decide)).2.2.1⟩

/-! ## Helper lemmas on the JSON round trip -/

theorem ofInt64_of_int32 (n : Int) (hlo : -(2 ^ 31) ≤ n) (hhi : n < 2 ^ 31) :
    ofInt64 n = Float64.fin (n : ℚ) := by
  have hsmall : n.natAbs < 2 ^ 53 := by omega
  simp [ofInt64, roundToBits_small 53 n hsmall]

theorem appendArg_float64_cases (p : Platform) (g : Float64) :
    appendArg p [] (GoVal.float64 g)
      = if Float64.eq (ofInt64 (toInt64 p g)) g then [OscArg.int32 (toInt32 p g)]
        else [OscArg.float32 (toFloat32 g)] := by
  simp only [appendArg]
  split <;> simp

/-- An integer read back from the document is sent with its value exactly when it lies in
the 32-bit range. -/
theorem integer_sent_iff (p : Platform) (n : Int) :
    (appendArg p [] (GoVal.float64 (ofInt64 n))).map (fun o => some o.toArgument)
        = [some (Argument.Integer n)]
      ↔ (decide (-(2 ^ 31) ≤ n) && decide (n < 2 ^ 31)) = true := by
  constructor
  · intro h
    rw [appendArg_float64_cases] at h
    split at h
    · simp only [List.map_cons, List.map_nil, OscArg.toArgument, List.cons.injEq,
        Option.some.injEq, Argument.Integer.injEq, and_true] at h
      have hr := toInt32_range p (ofInt64 n)
      rw [h] at hr
      simp only [Bool.and_eq_true, decide_eq_true_eq]
      exact hr
    · simp [OscArg.toArgument] at h
  · intro h
    simp only [Bool.and_eq_true, decide_eq_true_eq] at h
    rw [ofInt64_of_int32 n h.1 h.2, appendArg_float64_int p [] n h.1 h.2]
    simp [OscArg.toArgument]

/-- A float read back from the document as `g` is sent with the value `f` exactly when the
integer test fails on `g` and `float32(g)` is `f`. -/
theorem float_sent_iff (p : Platform) (g f : Float64) :
    (appendArg p [] (GoVal.float64 g)).map (fun o => some o.toArgument)
        = [some (Argument.Float f)]
      ↔ sentAsFloat p g f = true := by
  rw [appendArg_float64_cases]
  unfold sentAsFloat
  split
  · rename_i h
    simp [OscArg.toArgument, h]
  · rename_i h
    simp [OscArg.toArgument, h]

/-- What the round trip sends for a recorded value: the arguments built from the value
read back, none when the value is not encoded. -/
theorem scalar_round_trip_iff (lib : JsonLib) (p : Platform) (x : GoVal) (a : Argument)
    (hx : x.toArgument = some a) :
    (∃ j, encodeVal lib x = some j
        ∧ (appendArg p [] (decodeVal j)).map (fun o => some o.toArgument) = [some a])
      ↔ survivesRoundTrip lib p x = true := by
  cases x with
  | int32 n =>
    simp only [GoVal.toArgument, Option.some.injEq] at hx
    subst hx
    simp only [encodeVal, Option.some.injEq, exists_eq_left', decodeVal, survivesRoundTrip]
    exact integer_sent_iff p n
  | int64 n =>
    simp only [GoVal.toArgument, Option.some.injEq] at hx
    subst hx
    simp only [encodeVal, Option.some.injEq, exists_eq_left', decodeVal, survivesRoundTrip]
    exact integer_sent_iff p n
  | int n =>
    simp only [GoVal.toArgument, Option.some.injEq] at hx
    subst hx
    simp only [encodeVal, Option.some.injEq, exists_eq_left', decodeVal, survivesRoundTrip]
    exact integer_sent_iff p n
  | float32 f =>
    simp only [GoVal.toArgument, Option.some.injEq] at hx
    subst hx
    by_cases hf : f.isFinite = true
    · simp only [encodeVal, hf, if_true, Option.some.injEq, exists_eq_left', decodeVal,
        survivesRoundTrip, Bool.true_and]
      exact float_sent_iff p (lib.float32Number f) f
    · simp [encodeVal, hf, survivesRoundTrip]
  | float64 f =>
    simp only [GoVal.toArgument, Option.some.injEq] at hx
    subst hx
    by_cases hf : f.isFinite = true
    · simp only [encodeVal, hf, if_true, Option.some.injEq, exists_eq_left', decodeVal,
        survivesRoundTrip, Bool.true_and]
      exact float_sent_iff p f f
    · simp [encodeVal, hf, survivesRoundTrip]
  | str s =>
    simp only [GoVal.toArgument, Option.some.injEq] at hx
    subst hx
    simp [encodeVal, decodeVal, appendArg, survivesRoundTrip, OscArg.toArgument]
  | bool b =>
    simp only [GoVal.toArgument, Option.some.injEq] at hx
    subst hx
    simp [encodeVal, decodeVal, appendArg, survivesRoundTrip, OscArg.toArgument]
  | nil => simp [GoVal.toArgument] at hx
  | nilSlice => simp [GoVal.toArgument] at hx
  | slice _ => simp [GoVal.toArgument] at hx
  | other _ => simp [GoVal.toArgument] at hx

theorem scalar_sent_length (lib : JsonLib) (p : Platform) (x : GoVal) (a : Argument) (j : Json)
    (hx : x.toArgument = some a) (hj : encodeVal lib x = some j) :
    (appendArg p [] (decodeVal j)).length = 1 := by
  cases x with
  | int32 n =>
    simp only [encodeVal, Option.some.injEq] at hj
    subst hj
    rw [decodeVal, appendArg_float64_cases]
    split <;> rfl
  | int64 n =>
    simp only [encodeVal, Option.some.injEq] at hj
    subst hj
    rw [decodeVal, appendArg_float64_cases]
    split <;> rfl
  | int n =>
    simp only [encodeVal, Option.some.injEq] at hj
    subst hj
    rw [decodeVal, appendArg_float64_cases]
    split <;> rfl
  | float32 f =>
    simp only [encodeVal] at hj
    split at hj
    · simp only [Option.some.injEq] at hj
      subst hj
      rw [decodeVal, appendArg_float64_cases]
      split <;> rfl
    · simp at hj
  | float64 f =>
    simp only [encodeVal] at hj
    split at hj
    · simp only [Option.some.injEq] at hj
      subst hj
      rw [decodeVal, appendArg_float64_cases]
      split <;> rfl
    · simp at hj
  | str s =>
    simp only [encodeVal, Option.some.injEq] at hj
    subst hj
    simp [decodeVal, appendArg]
  | bool b =>
    simp only [encodeVal, Option.some.injEq] at hj
    subst hj
    simp [decodeVal, appendArg]
  | nil => simp [GoVal.toArgument] at hx
  | nilSlice => simp [GoVal.toArgument] at hx
  | slice _ => simp [GoVal.toArgument] at hx
  | other _ => simp [GoVal.toArgument] at hx

theorem survives_toArgument (lib : JsonLib) (p : Platform) (x : GoVal)
    (h : survivesRoundTrip lib p x = true) : ∃ a, x.toArgument = some a := by
  cases x <;> simp [survivesRoundTrip] at h <;> simp [GoVal.toArgument]

/-- A list of sent argument values is never a list that starts with a missing value. -/
theorem sent_ne_none_cons (sent : List OscArg) (rest : List (Option Argument)) :
    sent.map (fun o => some o.toArgument) ≠ none :: rest := by
  cases sent <;> simp

theorem foldl_appendArg_cons (p : Platform) (d : GoVal) (ds : List GoVal) :
    (d :: ds).foldl (fun oscMsg v => appendArg p oscMsg v) []
      = appendArg p [] d ++ ds.foldl (fun oscMsg v => appendArg p oscMsg v) [] := by
  rw [List.foldl_cons, ← appendElems_eq_foldl, ← appendElems_eq_foldl, appendElems_append]

theorem list_round_trip_iff (lib : JsonLib) (p : Platform) (xs : List GoVal) :
    (∃ js, encodeVals lib xs = some js
        ∧ ((decodeVals js).foldl (fun oscMsg v => appendArg p oscMsg v) []).map
            (fun o => some o.toArgument) = xs.map GoVal.toArgument)
      ↔ xs.all (survivesRoundTrip lib p) = true := by
  induction xs with
  | nil => simp [encodeVals, decodeVals]
  | cons x rest ih =>
    simp only [List.all_cons, Bool.and_eq_true, List.map_cons]
    constructor
    · rintro ⟨js, hjs, hsent⟩
      simp only [encodeVals] at hjs
      cases hj : encodeVal lib x with
      | none => simp [hj] at hjs
      | some j =>
        cases hjr : encodeVals lib rest with
        | none => simp [hj, hjr] at hjs
        | some jr =>
          simp only [hj, hjr, Option.some.injEq] at hjs
          subst hjs
          rw [decodeVals, foldl_appendArg_cons, List.map_append] at hsent
          cases hx : x.toArgument with
          | none =>
            rw [hx, ← List.map_append] at hsent
            exact absurd hsent (sent_ne_none_cons _ _)
          | some a =>
            rw [hx] at hsent
            have hlen := scalar_sent_length lib p x a j hx hj
            obtain ⟨o, ho⟩ : ∃ o, appendArg p [] (decodeVal j) = [o] := by
              cases hs : appendArg p [] (decodeVal j) with
              | nil => simp [hs] at hlen
              | cons o tl =>
                cases tl with
                | nil => exact ⟨o, rfl⟩
                | cons _ _ => simp [hs] at hlen
            rw [ho] at hsent
            simp only [List.map_cons, List.map_nil, List.singleton_append,
              List.cons.injEq] at hsent
            refine ⟨(scalar_round_trip_iff lib p x a hx).1 ⟨j, hj, ?_⟩, ih.1 ⟨jr, hjr, hsent.2⟩⟩
            rw [ho]
            simp [hsent.1]
    · rintro ⟨hx, hrest⟩
      obtain ⟨a, ha⟩ := survives_toArgument lib p x hx
      obtain ⟨j, hj, hsent⟩ := (scalar_round_trip_iff lib p x a ha).2 hx
      obtain ⟨jr, hjr, hsentr⟩ := ih.2 hrest
      refine ⟨j :: jr, by simp [encodeVals, hj, hjr], ?_⟩
      rw [decodeVals, foldl_appendArg_cons, List.map_append, hsent, hsentr, ha]
      rfl

theorem data_round_trip_iff (lib : JsonLib) (p : Platform) (data : GoVal) :
    (∃ j, encodeVal lib data = some j
        ∧ (buildArguments p (decodeVal j)).map (fun o => some o.toArgument)
            = (dataElems data).map GoVal.toArgument)
      ↔ dataSurvives lib p data = true := by
  have scalar : ∀ a, data.toArgument = some a → dataElems data = [data] →
      dataSurvives lib p data = survivesRoundTrip lib p data →
      ((∃ j, encodeVal lib data = some j
        ∧ (buildArguments p (decodeVal j)).map (fun o => some o.toArgument)
            = (dataElems data).map GoVal.toArgument)
      ↔ dataSurvives lib p data = true) := by
    intro a ha hel hsurv
    rw [hel, hsurv, ← scalar_round_trip_iff lib p data a ha]
    simp only [buildArguments_eq_appendArg, List.map_cons, List.map_nil, ha]
  cases data with
  | slice xs =>
    rw [dataSurvives, ← list_round_trip_iff lib p xs]
    simp only [encodeVal, Option.map_eq_some', dataElems]
    constructor
    · rintro ⟨j, ⟨js, hjs, rfl⟩, hsent⟩
      exact ⟨js, hjs, by simpa [decodeVal, buildArguments] using hsent⟩
    · rintro ⟨js, hjs, hsent⟩
      exact ⟨Json.arr js, ⟨js, hjs, rfl⟩, by simpa [decodeVal, buildArguments] using hsent⟩
  | nilSlice =>
    simp [encodeVal, decodeVal, buildArguments, appendArg, dataElems, dataSurvives,
      survivesRoundTrip]
  | nil =>
    simp [encodeVal, decodeVal, buildArguments, appendArg, dataElems, dataSurvives,
      survivesRoundTrip, GoVal.toArgument]
  | other r =>
    simp only [dataElems, List.map_cons, List.map_nil, GoVal.toArgument, dataSurvives,
      survivesRoundTrip, Bool.false_eq_true, iff_false, not_exists, not_and]
    intro j _
    exact sent_ne_none_cons _ _
  | int32 n => exact scalar _ rfl rfl rfl
  | int64 n => exact scalar _ rfl rfl rfl
  | int n => exact scalar _ rfl rfl rfl
  | float32 f => exact scalar _ rfl rfl rfl
  | float64 f => exact scalar _ rfl rfl rfl
  | str s => exact scalar _ rfl rfl rfl
  | bool b => exact scalar _ rfl rfl rfl

theorem records_round_trip_iff (lib : JsonLib) (p : Platform)
    (messages : List RecordedMessage) :
    (∃ doc, encodeRecords lib messages = some doc
        ∧ doc.map (fun r => (r.address,
            (buildArguments p (decodeVal r.data)).map (fun o => some o.toArgument)))
          = messages.map RecordedMessage.content)
      ↔ messages.all (recordSurvives lib p) = true := by
  induction messages with
  | nil => simp [encodeRecords]
  | cons m rest ih =>
    simp only [List.all_cons, Bool.and_eq_true, List.map_cons, recordSurvives]
    rw [← ih, ← data_round_trip_iff lib p m.Data]
    constructor
    · rintro ⟨doc, hdoc, hsent⟩
      simp only [encodeRecords] at hdoc
      cases hr : encodeRecord lib m with
      | none => simp [hr] at hdoc
      | some r =>
        cases hrs : encodeRecords lib rest with
        | none => simp [hr, hrs] at hdoc
        | some rs =>
          simp only [hr, hrs, Option.some.injEq] at hdoc
          subst hdoc
          simp only [List.map_cons, List.cons.injEq, RecordedMessage.content,
            Prod.mk.injEq] at hsent
          simp only [encodeRecord] at hr
          split at hr
          · rename_i hfin
            cases hd : encodeVal lib m.Data with
            | none => simp [hd] at hr
            | some d =>
              simp only [hd, Option.some.injEq] at hr
              subst hr
              exact ⟨⟨hfin, d, rfl, hsent.1.2⟩, rs, rfl, hsent.2⟩
          · simp at hr
    · rintro ⟨⟨hfin, d, hd, hsent⟩, rs, hrs, hsentr⟩
      refine ⟨{ time := m.Time, address := m.Address, data := d } :: rs, ?_, ?_⟩
      · simp [encodeRecords, encodeRecord, hfin, hd, hrs]
      · simp [RecordedMessage.content, hsent, hsentr]

theorem toFloat32_half : toFloat32 (Float64.fin (1 / 2)) = Float64.fin (1 / 2) := by
  have := roundBinary_exact 24 (-126) 127 false 1 (-1) (by norm_num) (by norm_num)
    (by norm_num) (by norm_num)
  have e : ((1 : ℤ) : ℚ) * 2 ^ (-1 : ℤ) = 1 / 2 := by norm_num
  rw [e] at this
  exact this

/-! ## Round trip -/

/-- C5 as stated fails.  The empty list that `dirt_strip` records for a message with one
argument (and `basic` for a message without arguments) is a nil slice, written as JSON
`null` and replayed as the one string argument "<nil>" (on every platform and whatever
the JSON library does elsewhere), not as an empty argument list; the nil data that
`dirt_basic` records for a message without arguments is replayed as the same string;
the float `5` is read back as the number 5 and replayed as the integer `5`. -/
theorem round_trip_nil_becomes_string :
    (dirt_strip "/x" [GoVal.str "a"]).data = GoVal.nilSlice
    ∧ (basic "/x" []).data = GoVal.nilSlice
    ∧ dataElems GoVal.nilSlice = []
    ∧ (recordThenReplay { float32Number := fun x => x, otherValue := fun _ => none } amd64
          (Float64.fin 1) [{ Time := Float64.fin 0, Address := "/x", Data := GoVal.nilSlice }]
          (fun _ => Float64.fin 0) (fun _ => false)).map Outcome.sends
        = some [{ Address := "/x", Arguments := [OscArg.str "<nil>"] }]
    ∧ (¬ ∃ (lib : JsonLib) (p : Platform),
        (recordThenReplay lib p (Float64.fin 1)
          [{ Time := Float64.fin 0, Address := "/x", Data := GoVal.nilSlice }]
          (fun _ => Float64.fin 0) (fun _ => false)).map Outcome.sends
        = some [{ Address := "/x", Arguments := [] }])
    ∧ (dirt_basic "/x" []).data = GoVal.nil
    ∧ (recordThenReplay { float32Number := fun x => x, otherValue := fun _ => none } amd64
          (Float64.fin 1) [{ Time := Float64.fin 0, Address := "/x", Data := GoVal.nil }]
          (fun _ => Float64.fin 0) (fun _ => false)).map Outcome.sends
        = some [{ Address := "/x", Arguments := [OscArg.str "<nil>"] }]
    ∧ (recordThenReplay { float32Number := fun x => x, otherValue := fun _ => none } amd64
          (Float64.fin 1)
          [{ Time := Float64.fin 0, Address := "/x", Data := GoVal.float32 (Float64.fin 5) }]
          (fun _ => Float64.fin 0) (fun _ => false)).map Outcome.sends
        = some [{ Address := "/x", Arguments := [OscArg.int32 5] }] := by
  have key : ∀ (lib : JsonLib) (p : Platform),
      (recordThenReplay lib p (Float64.fin 1)
          [{ Time := Float64.fin 0, Address := "/x", Data := GoVal.nilSlice }]
          (fun _ => Float64.fin 0) (fun _ => false)).map Outcome.sends
        = some [{ Address := "/x", Arguments := [OscArg.str "<nil>"] }] := by
    intro lib p
    simp [recordThenReplay, finalizeAndExit, encodeRecords, encodeRecord, encodeVal,
      Float64.isFinite, replayerMain, replay_sends, decodeRecord, decodeVal, buildArguments,
      appendArg]
  refine ⟨rfl, rfl, rfl, key _ _, ?_, rfl, ?_, ?_⟩
  · rintro ⟨lib, p, h⟩
    rw [key] at h
    simp at h
  · simp [recordThenReplay, finalizeAndExit, encodeRecords, encodeRecord, encodeVal,
      Float64.isFinite, replayerMain, replay_sends, decodeRecord, decodeVal, buildArguments,
      appendArg]
  · have h5 := appendArg_float64_int amd64 [] 5 (by decide) (by decide)
    simp only [Int.cast_ofNat, List.nil_append] at h5
    simp [recordThenReplay, finalizeAndExit, encodeRecords, encodeRecord, encodeVal,
      Float64.isFinite, replayerMain, replay_sends, decodeRecord, decodeVal, buildArguments,
      h5]

/-- C5, amended: for every sequence of recorded events (addresses and strings of valid
UTF-8), writing the log with `finalizeAndExit`, loading it and replaying it (at any
speed, with any clock readings and send failures) hands one message per event to
`client.Send`, in the same order, with the same address and with an argument list
equal, as Integer, Float, String and Boolean values, to the recorded data (the elements
of a list data, or the single scalar), if and only if every event has a finite time and
its data is, or is a non-nil list of, values of these kinds: a string, a boolean, an
integer of the 32-bit range, or a finite float that is read back from its JSON literal
as a `float64` `g` on which the integer test `float64(int64(g)) == g` of `appendArg`
fails (as on every non-integral `g`) and whose `float32(g)` is the recorded value.
So a non-integral float that is its own `float32` rounding and is read back as itself is
reproduced, and an integral float below `2^53` is not. -/
theorem record_replay_round_trip (lib : JsonLib) (p : Platform) (speedFactor : Float64)
    (messages : List RecordedMessage) (elapsed : Nat → Float64) (sendFails : Nat → Bool) :
    ((recordThenReplay lib p speedFactor messages elapsed sendFails).map
        (fun o => o.sends.map OutMessage.content)
      = some (messages.map RecordedMessage.content)
      ↔ messages.all (recordSurvives lib p) = true)
    ∧ (∀ q : ℚ, q.den ≠ 1 → toFloat32 (Float64.fin q) = Float64.fin q →
        survivesRoundTrip lib p (GoVal.float64 (Float64.fin q)) = true)
    ∧ (∀ q g : ℚ, lib.float32Number (Float64.fin q) = Float64.fin g → g.den ≠ 1 →
        toFloat32 (Float64.fin g) = Float64.fin q →
        survivesRoundTrip lib p (GoVal.float32 (Float64.fin q)) = true)
    ∧ (∀ n : Int, n.natAbs < 2 ^ 53 →
        survivesRoundTrip lib p (GoVal.float64 (Float64.fin (n : ℚ))) = false) := by
  refine ⟨?_, ?_, ?_, ?_⟩
  rotate_left
  · intro q hq hf
    simp [survivesRoundTrip, sentAsFloat, Float64.isFinite, eq_ofInt64_fraction _ q hq, hf]
  · intro q g hg hq hf
    simp [survivesRoundTrip, sentAsFloat, Float64.isFinite, hg, eq_ofInt64_fraction _ g hq, hf]
  · intro n hn
    have h64 : -(2 ^ 63) ≤ n ∧ n < 2 ^ 63 := by constructor <;> omega
    have hto : toInt64 p (Float64.fin (n : ℚ)) = n := by
      simp only [toInt64, truncQ_intCast, h64, and_self, if_true]
    simp [survivesRoundTrip, sentAsFloat, hto, ofInt64, roundToBits_small 53 n hn, Float64.eq,
      Float64.toRat]
  rw [← records_round_trip_iff lib p messages]
  have hrun : ∀ doc, encodeRecords lib messages = some doc →
      (recordThenReplay lib p speedFactor messages elapsed sendFails).map
        (fun o => o.sends.map OutMessage.content)
      = some (doc.map (fun r => (r.address,
            (buildArguments p (decodeVal r.data)).map (fun o => some o.toArgument)))) := by
    intro doc hdoc
    simp [recordThenReplay, finalizeAndExit, hdoc, replayerMain, replay_sends, decodeRecord,
      OutMessage.content]
  constructor
  · intro h
    cases hdoc : encodeRecords lib messages with
    | none => simp [recordThenReplay, finalizeAndExit, hdoc] at h
    | some doc =>
      rw [hrun doc hdoc, Option.some.injEq] at h
      exact ⟨doc, rfl, h⟩
  · rintro ⟨doc, hdoc, hsent⟩
    rw [hrun doc hdoc, hsent]

/-- Witness of C5, amended: a list of a string, an integer and the float `1/2`, then a
boolean. -/
theorem record_replay_round_trip_witness :
    (recordThenReplay { float32Number := fun x => x, otherValue := fun _ => none } amd64
        (Float64.fin 1)
        [{ Time := Float64.fin 0, Address := "/a",
           Data := GoVal.slice
             [GoVal.str "s", GoVal.int32 7, GoVal.float32 (Float64.fin (1 / 2))] },
         { Time := Float64.fin 2, Address := "/b", Data := GoVal.bool true }]
        (fun _ => Float64.fin 0) (fun _ => false)).map
        (fun o => o.sends.map OutMessage.content)
      = some [("/a", [some (Argument.String "s"), some (Argument.Integer 7),
                      some (Argument.Float (Float64.fin (1 / 2)))]),
              ("/b", [some (Argument.Boolean true)])] :=
  (record_replay_round_trip { float32Number := fun x => x, otherValue := fun _ => none }
      amd64 (Float64.fin 1)
      [{ Time := Float64.fin 0, Address := "/a",
         Data := GoVal.slice
           [GoVal.str "s", GoVal.int32 7, GoVal.float32 (Float64.fin (1 / 2))] },
       { Time := Float64.fin 2, Address := "/b", Data := GoVal.bool true }]
      (fun _ => Float64.fin 0) (fun _ => false)).1.2
    (by
      have hhalf : (1 / 2 : ℚ).den ≠ 1 := by norm_num
      have hs : sentAsFloat amd64 (Float64.fin (1 / 2)) (Float64.fin (1 / 2)) = true := by
        simp only [sentAsFloat, eq_ofInt64_fraction _ _ hhalf, toFloat32_half]
        simp
      simp only [List.all_cons, List.all_nil, recordSurvives, dataSurvives, hs,
        survivesRoundTrip, Float64.isFinite]
      decide)

end OscRecorder
